import Mathlib

/-
Verification of the Markov-chain music composer core
(sources: 2025-10-29-markov-chain-midi-gui_2.py and
2025-10-29-markov-chain-midi-gui-streamlit.py).

Shallow embedding conventions:
* Python floats carrying musical durations and probabilities are modelled
  as exact rationals (ℚ); the program only manipulates small dyadic values.
* Pitch-name strings such as "C4" / "Bb3" are modelled structurally by
  `PN` (letter, alteration, octave); `PN.midi` models music21's
  `Pitch.midi` and `PN.upOctave` models `p.octave += 1`.
* Python dicts are modelled as insertion-ordered association lists.
* A pseudo-random source is modelled as a stream of choices: an index
  stream `ℕ → ℕ` (used modulo the candidate-list length, so that every
  reachable choice corresponds to some stream) and, where the code flips
  a biased coin, a boolean stream `ℕ → Bool`.
-/

namespace MarkovMusic

/-- Models Python's builtin `round` on exact rationals: round half to even
(banker's rounding), as used by `quantize_duration` in both variants. -/
def pyRound (x : ℚ) : ℤ :=
  if x - ⌊x⌋ < 1/2 then ⌊x⌋
  else if 1/2 < x - ⌊x⌋ then ⌊x⌋ + 1
  else if ⌊x⌋ % 2 = 0 then ⌊x⌋ else ⌊x⌋ + 1

/-- `quantize_duration(duration, quantization)` from both source variants:
`quantized = round(duration / quantization) * quantization`, then clamp
values below 0.125 up to 0.25 and values above 4.0 down to 4.0. -/
def quantize_duration (duration quantization : ℚ) : ℚ :=
  let quantized : ℚ := (pyRound (duration / quantization) : ℚ) * quantization
  let clamped : ℚ := if quantized < 1/8 then 1/4 else quantized
  if 4 < clamped then 4 else clamped

lemma pyRound_nonneg (x : ℚ) (h : 0 ≤ x) : 0 ≤ pyRound x := by
  have h0 : (0 : ℤ) ≤ ⌊x⌋ := Int.floor_nonneg.mpr h
  unfold pyRound
  split_ifs <;> omega

lemma pyRound_intCast (n : ℤ) : pyRound (n : ℚ) = n := by
  unfold pyRound
  simp

/-- The three possible shapes of a quantizer result: the low clamp 1/4,
the high clamp 4, or an unclamped grid multiple in [1/8, 4]. -/
lemma quantize_duration_cases (x g : ℚ) :
    quantize_duration x g = 1/4 ∨ quantize_duration x g = 4 ∨
      (∃ n : ℤ, quantize_duration x g = (n : ℚ) * g ∧
        1/8 ≤ quantize_duration x g ∧ quantize_duration x g ≤ 4) := by
  simp only [quantize_duration]
  by_cases h1 : (pyRound (x / g) : ℚ) * g < 1/8
  · simp only [if_pos h1]
    rw [if_neg (by norm_num : ¬ (4 : ℚ) < 1/4)]
    left; rfl
  · simp only [if_neg h1]
    by_cases h2 : (4 : ℚ) < (pyRound (x / g) : ℚ) * g
    · rw [if_pos h2]; right; left; rfl
    · rw [if_neg h2]; right; right
      exact ⟨pyRound (x / g), rfl, le_of_not_lt h1, le_of_not_lt h2⟩

/-- A grid multiple lying inside [1/8, 4] is a fixed point of the quantizer. -/
lemma quantize_duration_fixed (n : ℤ) (g : ℚ) (hg : g ≠ 0)
    (hlo : 1/8 ≤ (n : ℚ) * g) (hhi : (n : ℚ) * g ≤ 4) :
    quantize_duration ((n : ℚ) * g) g = (n : ℚ) * g := by
  simp only [quantize_duration]
  rw [mul_div_cancel_right₀ _ hg, pyRound_intCast]
  simp only [if_neg (show ¬ (n : ℚ) * g < 1/8 by linarith)]
  rw [if_neg (show ¬ (4 : ℚ) < (n : ℚ) * g by linarith)]

/-- C6 counterexample: with quantization grid 0.2, the input 0.2 is a grid
multiple in [0.125, 0.25), so `quantize_duration` returns 0.2, outside
[0.25, 4.0].  (In Python: `quantize_duration(0.2, 0.2) == 0.2`.)  The claim
as stated, quantified over every grid, is therefore false. -/
theorem C6_counterexample :
    quantize_duration (1/5) (1/5) = 1/5 ∧ ¬ (1/4 ≤ (1/5 : ℚ)) := by
  constructor
  · norm_num [quantize_duration, pyRound]
  · norm_num

/-- C6 (amended): for every finite non-negative duration and every
quantization grid of at least 0.25 beats — which covers the four grids the
application offers (0.25, 0.5, 1.0, 2.0) — `quantize_duration` returns a
value in the closed interval [0.25, 4.0]. -/
theorem C6_quantize_range (d g : ℚ) (hd : 0 ≤ d) (hg : 1/4 ≤ g) :
    1/4 ≤ quantize_duration d g ∧ quantize_duration d g ≤ 4 := by
  have hg0 : (0 : ℚ) < g := lt_of_lt_of_le (by norm_num) hg
  have hn : 0 ≤ pyRound (d / g) := pyRound_nonneg _ (div_nonneg hd hg0.le)
  simp only [quantize_duration]
  rcases eq_or_lt_of_le hn with h0 | h1
  · rw [← h0]
    norm_num
  · have h1q : (1 : ℚ) ≤ (pyRound (d / g) : ℚ) := by exact_mod_cast h1
    have hq : 1/4 ≤ (pyRound (d / g) : ℚ) * g :=
      le_trans hg (le_mul_of_one_le_left hg0.le h1q)
    split_ifs with hsmall hbig hbig
    · norm_num
    · norm_num
    · constructor <;> linarith
    · constructor <;> linarith

/-- C6 witness: the amended theorem applied at duration 1/3, grid 1/2. -/
theorem C6_witness :
    (0 ≤ (1/3 : ℚ)) ∧ (1/4 ≤ (1/2 : ℚ)) ∧
      (1/4 ≤ quantize_duration (1/3) (1/2) ∧ quantize_duration (1/3) (1/2) ≤ 4) :=
  ⟨by norm_num, by norm_num, C6_quantize_range (1/3) (1/2) (by norm_num) (by norm_num)⟩

/-- C7 counterexample: with grid 0.3, `quantize_duration(0, 0.3) = 0.25`
(low clamp) but re-quantizing 0.25 gives 0.3, so the quantizer is not
idempotent for every grid.  (In Python: `quantize_duration(0.25, 0.3) == 0.3`.) -/
theorem C7_counterexample :
    quantize_duration 0 (3/10) = 1/4 ∧
      quantize_duration (quantize_duration 0 (3/10)) (3/10) = 3/10 ∧
      (3/10 : ℚ) ≠ 1/4 := by
  have h : quantize_duration 0 (3/10) = 1/4 := by
    norm_num [quantize_duration, pyRound]
  refine ⟨h, ?_, by norm_num⟩
  rw [h]
  norm_num [quantize_duration, pyRound]

/-- C7 (amended): `quantize_duration` is idempotent for every positive grid
for which the two clamp values 0.25 and 4.0 are themselves fixed points of
the quantizer — in particular for the application's grids 0.25, 0.5, 1.0
and 2.0.  (For other grids, such as 0.3, idempotence fails: see the
counterexample.) -/
theorem C7_quantize_idempotent (x g : ℚ) (hg : 0 < g)
    (h25 : quantize_duration (1/4) g = 1/4) (h4 : quantize_duration 4 g = 4) :
    quantize_duration (quantize_duration x g) g = quantize_duration x g := by
  rcases quantize_duration_cases x g with h | h | ⟨n, hn, hlo, hhi⟩
  · rw [h]; exact h25
  · rw [h]; exact h4
  · rw [hn] at hlo hhi ⊢
    exact quantize_duration_fixed n g hg.ne' hlo hhi

/-- C7 witness: the amended theorem applied at x = 1/3, grid 1/2. -/
theorem C7_witness :
    (0 < (1/2 : ℚ)) ∧ quantize_duration (1/4) (1/2) = 1/4 ∧
      quantize_duration 4 (1/2) = 4 ∧
      quantize_duration (quantize_duration (1/3) (1/2)) (1/2) =
        quantize_duration (1/3) (1/2) :=
  ⟨by norm_num, by norm_num [quantize_duration, pyRound],
    by norm_num [quantize_duration, pyRound],
    C7_quantize_idempotent (1/3) (1/2) (by norm_num)
      (by norm_num [quantize_duration, pyRound])
      (by norm_num [quantize_duration, pyRound])⟩

/-! ## Pitch names and the range normalizer (`adjust_pitch_to_range`) -/

/-- Structural model of a music21 pitch name such as "C4" or "Bb3":
a letter (0 = C, 1 = D, 2 = E, 3 = F, 4 = G, 5 = A, 6 = B), a chromatic
alteration (-1 for a flat, +1 for a sharp) and an octave. -/
structure PN where
  letter : Fin 7
  alter : ℤ
  octave : ℤ
deriving DecidableEq, Repr

/-- Semitone offset of each letter within the octave (music21 convention). -/
def letterSemis : Fin 7 → ℤ := ![0, 2, 4, 5, 7, 9, 11]

/-- Models music21's `Pitch.midi`: C4 has midi 60. -/
def PN.midi (p : PN) : ℤ := 12 * (p.octave + 1) + letterSemis p.letter + p.alter

/-- Models `p.octave += 1` in music21: raises the height by one octave
(12 semitones) and keeps the pitch-class name. -/
def PN.upOctave (p : PN) : PN := { p with octave := p.octave + 1 }

/-- Models `p.octave -= 1`. -/
def PN.downOctave (p : PN) : PN := { p with octave := p.octave - 1 }

lemma PN.upOctave_midi (p : PN) : p.upOctave.midi = p.midi + 12 := by
  simp [PN.midi, PN.upOctave]
  ring

lemma PN.downOctave_midi (p : PN) : p.downOctave.midi = p.midi - 12 := by
  simp [PN.midi, PN.downOctave]
  ring

/-- The `while p.midi < min_p.midi: p.octave += 1` loop of
`adjust_pitch_to_range`. -/
def octUp (p : PN) (lo : ℤ) : PN :=
  if p.midi < lo then octUp p.upOctave lo else p
termination_by (lo - p.midi).toNat
decreasing_by
  rw [PN.upOctave_midi]
  omega

/-- The `while p.midi > max_p.midi: p.octave -= 1` loop of
`adjust_pitch_to_range`. -/
def octDown (p : PN) (hi : ℤ) : PN :=
  if hi < p.midi then octDown p.downOctave hi else p
termination_by (p.midi - hi).toNat
decreasing_by
  rw [PN.downOctave_midi]
  omega

/-- A pitch name or the rest symbol, i.e. the first component of the
source's 5-tuples: either a pitch-name string or the string "R". -/
inductive MPitch where
  | rest : MPitch
  | note : PN → MPitch
deriving DecidableEq, Repr

/-- `INSTRUMENT_RANGES` from the sources, with pitch-name strings
translated to `PN` values (e.g. "Bb3" is B with a flat in octave 3). -/
def INSTRUMENT_RANGES : List (String × PN × PN) :=
  [("Flute", ⟨0, 0, 4⟩, ⟨0, 0, 7⟩),
   ("Oboe", ⟨6, -1, 3⟩, ⟨5, 0, 6⟩),
   ("Clarinet", ⟨1, 0, 3⟩, ⟨6, -1, 6⟩),
   ("Bassoon", ⟨6, -1, 1⟩, ⟨2, -1, 5⟩),
   ("Horn", ⟨3, 0, 2⟩, ⟨6, 0, 5⟩),
   ("Trumpet", ⟨4, -1, 3⟩, ⟨4, -1, 6⟩),
   ("Trombone", ⟨2, 0, 2⟩, ⟨6, -1, 5⟩),
   ("Tuba", ⟨1, 0, 1⟩, ⟨3, 0, 4⟩),
   ("Violin I", ⟨4, 0, 3⟩, ⟨5, 0, 7⟩),
   ("Violin II", ⟨4, 0, 3⟩, ⟨5, 0, 7⟩),
   ("Viola", ⟨0, 0, 3⟩, ⟨2, 0, 6⟩),
   ("Violoncello", ⟨0, 0, 2⟩, ⟨0, 0, 6⟩),
   ("Double Bass", ⟨2, 0, 1⟩, ⟨4, 0, 4⟩),
   ("Piano", ⟨5, 0, 0⟩, ⟨0, 0, 8⟩)]

/-- The part of an instrument label before the first occurrence of the
doubling separator " #", on the character list. -/
def beforeSep : List Char → List Char
  | [] => []
  | ' ' :: '#' :: _ => []
  | c :: rest => c :: beforeSep rest

/-- Models `instrument.split(" #")[0]` from `adjust_pitch_to_range`. -/
def baseName (instr : String) : String := String.mk (beforeSep instr.data)

/-- The range lookup of `adjust_pitch_to_range`: the base instrument's
entry in `INSTRUMENT_RANGES`, with the source's fallback
`INSTRUMENT_RANGES["Violin I"]` (G3, A7) for unrecognized names. -/
def lookupRangePN (instr : String) : PN × PN :=
  match List.lookup (baseName instr) INSTRUMENT_RANGES with
  | some r => r
  | none => (⟨4, 0, 3⟩, ⟨5, 0, 7⟩)

/-- `adjust_pitch_to_range(note_pitch, instrument)` from both sources:
a rest is returned unchanged; otherwise transpose up by octaves while
below the instrument's minimum and then down by octaves while above its
maximum. -/
def adjust_pitch_to_range (np : MPitch) (instr : String) : MPitch :=
  match np with
  | .rest => .rest
  | .note p =>
    let r := lookupRangePN instr
    .note (octDown (octUp p r.1.midi) r.2.midi)

lemma octUp_midi_ge (p : PN) (lo : ℤ) : lo ≤ (octUp p lo).midi := by
  have H : ∀ n : ℕ, ∀ q : PN, (lo - q.midi).toNat ≤ n → lo ≤ (octUp q lo).midi := by
    intro n
    induction n with
    | zero =>
      intro q h
      rw [octUp]
      split_ifs with hlt
      · omega
      · omega
    | succ k ih =>
      intro q h
      rw [octUp]
      split_ifs with hlt
      · exact ih q.upOctave (by rw [PN.upOctave_midi]; omega)
      · omega
  exact H (lo - p.midi).toNat p le_rfl

lemma octUp_eq_self (p : PN) (lo : ℤ) (h : lo ≤ p.midi) : octUp p lo = p := by
  rw [octUp]
  simp [not_lt.mpr h]

lemma octDown_eq_self (p : PN) (hi : ℤ) (h : p.midi ≤ hi) : octDown p hi = p := by
  rw [octDown]
  simp [not_lt.mpr h]

lemma octDown_midi_le (p : PN) (hi : ℤ) (h : hi < p.midi) : (octDown p hi).midi ≤ hi := by
  have H : ∀ n : ℕ, ∀ q : PN, (q.midi - hi).toNat ≤ n → hi < q.midi →
      (octDown q hi).midi ≤ hi := by
    intro n
    induction n with
    | zero =>
      intro q hn hq
      omega
    | succ k ih =>
      intro q hn hq
      rw [octDown, if_pos hq]
      by_cases h2 : hi < q.downOctave.midi
      · exact ih q.downOctave (by rw [PN.downOctave_midi]; omega) h2
      · rw [octDown_eq_self _ _ (by omega)]
        omega
  exact H (p.midi - hi).toNat p le_rfl h

lemma octDown_midi_ge (p : PN) (hi : ℤ) (h : hi < p.midi) :
    hi - 11 ≤ (octDown p hi).midi := by
  have H : ∀ n : ℕ, ∀ q : PN, (q.midi - hi).toNat ≤ n → hi < q.midi →
      hi - 11 ≤ (octDown q hi).midi := by
    intro n
    induction n with
    | zero =>
      intro q hn hq
      omega
    | succ k ih =>
      intro q hn hq
      rw [octDown, if_pos hq]
      by_cases h2 : hi < q.downOctave.midi
      · exact ih q.downOctave (by rw [PN.downOctave_midi]; omega) h2
      · rw [octDown_eq_self _ _ (by omega), PN.downOctave_midi]
        omega
  exact H (p.midi - hi).toNat p le_rfl h

/-- A successful association-list lookup returns an entry of the list. -/
lemma lookup_mem {α β : Type} [BEq α] [LawfulBEq α]
    (l : List (α × β)) (k : α) (v : β) (h : List.lookup k l = some v) :
    (k, v) ∈ l := by
  induction l with
  | nil => simp [List.lookup] at h
  | cons a t ih =>
    rcases a with ⟨ka, va⟩
    cases hbeq : (k == ka) with
    | true =>
      simp [List.lookup_cons, hbeq] at h
      have hk := eq_of_beq hbeq
      subst hk
      simp [h]
    | false =>
      simp [List.lookup_cons, hbeq] at h
      right
      exact ih h

/-- Every range the lookup can return (any of the 14 table entries or the
Violin I fallback) spans at least 11 semitones, so one octave of slack is
always available. -/
lemma lookupRangePN_span (instr : String) :
    (lookupRangePN instr).1.midi + 11 ≤ (lookupRangePN instr).2.midi := by
  have htab : ∀ x ∈ INSTRUMENT_RANGES, x.2.1.midi + 11 ≤ x.2.2.midi := by decide
  unfold lookupRangePN
  rcases h : List.lookup (baseName instr) INSTRUMENT_RANGES with _ | r
  · decide
  · exact htab _ (lookup_mem _ _ _ h)

/-- C8: `adjust_pitch_to_range` returns the rest symbol unchanged, and for
any pitched input returns a pitch whose midi height lies inside the
looked-up instrument range [low, high] (octave-up pass first, then the
octave-down pass). -/
theorem C8_adjust_pitch_in_range (p : PN) (instr : String) :
    adjust_pitch_to_range .rest instr = .rest ∧
      ∃ q : PN, adjust_pitch_to_range (.note p) instr = .note q ∧
        (lookupRangePN instr).1.midi ≤ q.midi ∧
        q.midi ≤ (lookupRangePN instr).2.midi := by
  refine ⟨rfl,
    octDown (octUp p (lookupRangePN instr).1.midi) (lookupRangePN instr).2.midi,
    rfl, ?_, ?_⟩
  · have hspan := lookupRangePN_span instr
    have hup := octUp_midi_ge p (lookupRangePN instr).1.midi
    by_cases hcase : (octUp p (lookupRangePN instr).1.midi).midi ≤ (lookupRangePN instr).2.midi
    · rw [octDown_eq_self _ _ hcase]
      exact hup
    · have := octDown_midi_ge (octUp p (lookupRangePN instr).1.midi)
        (lookupRangePN instr).2.midi (by omega)
      omega
  · have hup := octUp_midi_ge p (lookupRangePN instr).1.midi
    by_cases hcase : (octUp p (lookupRangePN instr).1.midi).midi ≤ (lookupRangePN instr).2.midi
    · rw [octDown_eq_self _ _ hcase]
      exact hcase
    · exact octDown_midi_le (octUp p (lookupRangePN instr).1.midi)
        (lookupRangePN instr).2.midi (by omega)

/-- Fuel-indexed version of the octave-up while loop: `none` means the
loop did not exit within the given number of iterations. -/
def octUpFuel : ℕ → PN → ℤ → Option PN
  | 0, p, lo => if p.midi < lo then none else some p
  | n + 1, p, lo => if p.midi < lo then octUpFuel n p.upOctave lo else some p

/-- Fuel-indexed version of the octave-down while loop. -/
def octDownFuel : ℕ → PN → ℤ → Option PN
  | 0, p, hi => if hi < p.midi then none else some p
  | n + 1, p, hi => if hi < p.midi then octDownFuel n p.downOctave hi else some p

lemma octUpFuel_sufficient (n : ℕ) :
    ∀ (p : PN) (lo : ℤ), lo - p.midi ≤ (n : ℤ) →
      octUpFuel n p lo = some (octUp p lo) := by
  induction n with
  | zero =>
    intro p lo h
    rw [octUpFuel, octUp]
    have : ¬ p.midi < lo := by omega
    simp [this]
  | succ k ih =>
    intro p lo h
    rw [octUpFuel, octUp]
    split_ifs with hlt
    · exact ih p.upOctave lo (by rw [PN.upOctave_midi]; omega)
    · rfl

lemma octDownFuel_sufficient (n : ℕ) :
    ∀ (p : PN) (hi : ℤ), p.midi - hi ≤ (n : ℤ) →
      octDownFuel n p hi = some (octDown p hi) := by
  induction n with
  | zero =>
    intro p hi h
    rw [octDownFuel, octDown]
    have : ¬ hi < p.midi := by omega
    simp [this]
  | succ k ih =>
    intro p hi h
    rw [octDownFuel, octDown]
    split_ifs with hlt
    · exact ih p.downOctave hi (by rw [PN.downOctave_midi]; omega)
    · rfl

/-- C10: both transposition loops of `adjust_pitch_to_range` terminate for
every pitch and every range with low ≤ high: an explicit iteration bound
exists for the up loop, and for the down loop started at the up loop's
result, and the terminating runs compute exactly the total functions used
by `adjust_pitch_to_range`. -/
theorem C10_adjust_pitch_terminates (p : PN) (lo hi : ℤ) (h : lo ≤ hi) :
    ∃ n m : ℕ, octUpFuel n p lo = some (octUp p lo) ∧
      octDownFuel m (octUp p lo) hi = some (octDown (octUp p lo) hi) := by
  refine ⟨(lo - p.midi).toNat, ((octUp p lo).midi - hi).toNat, ?_, ?_⟩
  · exact octUpFuel_sufficient _ p lo (by omega)
  · exact octDownFuel_sufficient _ (octUp p lo) hi (by omega)

/-- C10 witness: the termination theorem applied to the pitch C3 and the
concrete range [60, 72]. -/
theorem C10_witness :
    (60 : ℤ) ≤ 72 ∧
      ∃ n m : ℕ, octUpFuel n ⟨0, 0, 3⟩ 60 = some (octUp ⟨0, 0, 3⟩ 60) ∧
        octDownFuel m (octUp ⟨0, 0, 3⟩ 60) 72 =
          some (octDown (octUp ⟨0, 0, 3⟩ 60) 72) :=
  ⟨by omega, C10_adjust_pitch_terminates ⟨0, 0, 3⟩ 60 72 (by omega)⟩

/-! ## Events and the Markov trainer (`train` / `_calculate_separate_matrices`) -/

/-- A note tuple `(pitch, duration, dynamic, articulation, velocity)` as
used throughout both sources. -/
structure MEvent where
  pitch : MPitch
  dur : ℚ
  dyn : String
  art : String
  vel : ℤ
deriving DecidableEq, Repr

/-- One counting increment `matrix[k][v] += 1` on a row, creating the entry
with count 1 if missing (insertion order preserved, like a Python dict). -/
def bumpRow {ν : Type} [DecidableEq ν] : List (ν × ℚ) → ν → List (ν × ℚ)
  | [], v => [(v, 1)]
  | (u, c) :: rest, v =>
    if u = v then (u, c + 1) :: rest else (u, c) :: bumpRow rest v

/-- One counting increment `matrix[k][v] += 1` on a whole matrix, creating
the row if missing. -/
def bump {κ ν : Type} [DecidableEq κ] [DecidableEq ν] :
    List (κ × List (ν × ℚ)) → κ → ν → List (κ × List (ν × ℚ))
  | [], k, v => [(k, [(v, 1)])]
  | (k0, row) :: rest, k, v =>
    if k0 = k then (k0, bumpRow row v) :: rest else (k0, row) :: bump rest k v

/-- The count matrix accumulated over a list of (state, successor) pairs,
starting from the empty dict, exactly as the counting loops of
`_calculate_separate_matrices` and `_calculate_transition_matrix` do. -/
def buildMatrix {κ ν : Type} [DecidableEq κ] [DecidableEq ν]
    (pairs : List (κ × ν)) : List (κ × List (ν × ℚ)) :=
  pairs.foldl (fun m p => bump m p.1 p.2) []

/-- `sum(matrix[state].values())`. -/
def rowTotal {ν : Type} (row : List (ν × ℚ)) : ℚ := (row.map Prod.snd).sum

/-- `_normalize_matrix`: divide every row entry by the row's total. -/
def normalizeMatrix {κ ν : Type} (m : List (κ × List (ν × ℚ))) :
    List (κ × List (ν × ℚ)) :=
  m.map (fun r => (r.1, r.2.map (fun e => (e.1, e.2 / rowTotal r.2))))

/-- The adjacent pairs `(notes[i], notes[i+1])` of the first-order loops. -/
def adjacentPairs {α : Type} (l : List α) : List (α × α) := l.zip l.tail

/-- The pitch transition counts of `_calculate_separate_matrices`
(component 0 of each tuple). -/
def pitch_matrix (notes : List MEvent) : List (MPitch × List (MPitch × ℚ)) :=
  buildMatrix ((adjacentPairs notes).map (fun p => (p.1.pitch, p.2.pitch)))

/-- The duration transition counts (component 1 of each tuple). -/
def duration_matrix (notes : List MEvent) : List (ℚ × List (ℚ × ℚ)) :=
  buildMatrix ((adjacentPairs notes).map (fun p => (p.1.dur, p.2.dur)))

/-- The velocity transition counts (component 4 of each tuple). -/
def velocity_matrix (notes : List MEvent) : List (ℤ × List (ℤ × ℚ)) :=
  buildMatrix ((adjacentPairs notes).map (fun p => (p.1.vel, p.2.vel)))

/-- The `(k-gram, next event)` pairs of `_calculate_transition_matrix`:
for each `i < len(notes) - order`, key `tuple(notes[i:i+order])` and value
`notes[i+order]`. -/
def jointPairs (notes : List MEvent) (order : ℕ) : List (List MEvent × MEvent) :=
  (List.range (notes.length - order)).filterMap
    (fun i => ((notes.drop (i + order)).head?).map
      (fun nxt => ((notes.drop i).take order, nxt)))

/-- The order-k joint transition counts of `_calculate_transition_matrix`. -/
def transition_matrix (notes : List MEvent) (order : ℕ) :
    List (List MEvent × List (MEvent × ℚ)) :=
  buildMatrix (jointPairs notes order)

/-- Count-matrix invariant: every row is non-empty and every entry ≥ 1. -/
def goodMatrix {κ ν : Type} (m : List (κ × List (ν × ℚ))) : Prop :=
  ∀ r ∈ m, r.2 ≠ [] ∧ ∀ e ∈ r.2, 1 ≤ e.2

lemma bumpRow_good {ν : Type} [DecidableEq ν] (row : List (ν × ℚ)) (v : ν)
    (h : ∀ e ∈ row, 1 ≤ e.2) :
    bumpRow row v ≠ [] ∧ ∀ e ∈ bumpRow row v, 1 ≤ e.2 := by
  induction row with
  | nil =>
    refine ⟨by simp [bumpRow], ?_⟩
    intro e he
    simp [bumpRow] at he
    simp [he]
  | cons hd rest ih =>
    rcases hd with ⟨u, c⟩
    rw [bumpRow]
    split_ifs with hu
    · refine ⟨by simp, ?_⟩
      intro e he
      rcases List.mem_cons.mp he with h1 | h1
      · have hc : 1 ≤ c := h (u, c) (by simp)
        simp [h1]
        linarith
      · exact h e (by simp [h1])
    · refine ⟨by simp, ?_⟩
      intro e he
      rcases List.mem_cons.mp he with h1 | h1
      · exact h e (by simp [h1])
      · exact (ih (fun e he => h e (by simp [he]))).2 e h1

lemma bump_good {κ ν : Type} [DecidableEq κ] [DecidableEq ν]
    (m : List (κ × List (ν × ℚ))) (k : κ) (v : ν) (h : goodMatrix m) :
    goodMatrix (bump m k v) := by
  induction m with
  | nil =>
    intro r hr
    simp [bump] at hr
    subst hr
    refine ⟨by simp, ?_⟩
    intro e he
    simp at he
    simp [he]
  | cons hd rest ih =>
    rcases hd with ⟨k0, row⟩
    rw [bump]
    split_ifs with hk
    · intro r hr
      rcases List.mem_cons.mp hr with h1 | h1
      · have hrow := h (k0, row) (by simp)
        have hb := bumpRow_good row v hrow.2
        subst h1
        exact ⟨hb.1, hb.2⟩
      · exact h r (by simp [h1])
    · intro r hr
      rcases List.mem_cons.mp hr with h1 | h1
      · exact h r (by simp [h1])
      · exact ih (fun r hr => h r (by simp [hr])) r h1

lemma buildMatrix_good {κ ν : Type} [DecidableEq κ] [DecidableEq ν]
    (pairs : List (κ × ν)) : goodMatrix (buildMatrix pairs) := by
  have H : ∀ (ps : List (κ × ν)) (m : List (κ × List (ν × ℚ))), goodMatrix m →
      goodMatrix (ps.foldl (fun m p => bump m p.1 p.2) m) := by
    intro ps
    induction ps with
    | nil => intro m hm; exact hm
    | cons p rest ih =>
      intro m hm
      exact ih _ (bump_good m p.1 p.2 hm)
  exact H pairs [] (by intro r hr; simp at hr)

lemma rowTotal_pos {ν : Type} (row : List (ν × ℚ)) (hne : row ≠ [])
    (h : ∀ e ∈ row, 1 ≤ e.2) : 0 < rowTotal row := by
  rcases row with _ | ⟨e, rest⟩
  · exact absurd rfl hne
  · have h1 : 1 ≤ e.2 := h e (by simp)
    have h2 : 0 ≤ (rest.map Prod.snd).sum := by
      apply List.sum_nonneg
      intro x hx
      rcases List.mem_map.mp hx with ⟨e2, he2, rfl⟩
      have := h e2 (by simp [he2])
      linarith
    simp only [rowTotal, List.map_cons, List.sum_cons]
    linarith

lemma map_div_sum (l : List ℚ) (t : ℚ) : (l.map (fun x => x / t)).sum = l.sum / t := by
  induction l with
  | nil => simp
  | cons a rest ih => simp [ih, add_div]

lemma normalized_rowTotal {ν : Type} (row : List (ν × ℚ)) (h : 0 < rowTotal row) :
    rowTotal (row.map (fun e => (e.1, e.2 / rowTotal row))) = 1 := by
  have hne : rowTotal row ≠ 0 := h.ne'
  unfold rowTotal at hne ⊢
  rw [List.map_map]
  have h1 : (Prod.snd ∘ fun e : ν × ℚ => (e.1, e.2 / (row.map Prod.snd).sum)) =
      (fun e : ν × ℚ => e.2 / (row.map Prod.snd).sum) := rfl
  have h2 : (row.map (fun e : ν × ℚ => e.2 / (row.map Prod.snd).sum)) =
      ((row.map Prod.snd).map (fun x => x / (row.map Prod.snd).sum)) := by
    rw [List.map_map]
    rfl
  rw [h1, h2, map_div_sum, div_self hne]

lemma buildMatrix_rowTotal_pos {κ ν : Type} [DecidableEq κ] [DecidableEq ν]
    (pairs : List (κ × ν)) : ∀ r ∈ buildMatrix pairs, 0 < rowTotal r.2 := by
  intro r hr
  have := buildMatrix_good pairs r hr
  exact rowTotal_pos r.2 this.1 this.2

lemma buildMatrix_normalized {κ ν : Type} [DecidableEq κ] [DecidableEq ν]
    (pairs : List (κ × ν)) :
    ∀ r ∈ normalizeMatrix (buildMatrix pairs), rowTotal r.2 = 1 := by
  intro r hr
  rcases List.mem_map.mp hr with ⟨r0, hr0, rfl⟩
  exact normalized_rowTotal r0.2 (buildMatrix_rowTotal_pos pairs r0 hr0)

/-- C5: after training once on a non-empty corpus, every row of the pitch,
duration and velocity count matrices and of the order-k joint count matrix
has a strictly positive total (so normalization never divides by zero),
and after normalization every row's probabilities sum to exactly 1 in
rational arithmetic (hence within 1e-9). -/
theorem C5_trained_rows_normalize (notes : List MEvent) (order : ℕ)
    (hne : notes ≠ []) :
    ((∀ r ∈ pitch_matrix notes, 0 < rowTotal r.2) ∧
      (∀ r ∈ duration_matrix notes, 0 < rowTotal r.2) ∧
      (∀ r ∈ velocity_matrix notes, 0 < rowTotal r.2) ∧
      (∀ r ∈ transition_matrix notes order, 0 < rowTotal r.2)) ∧
    ((∀ r ∈ normalizeMatrix (pitch_matrix notes), rowTotal r.2 = 1) ∧
      (∀ r ∈ normalizeMatrix (duration_matrix notes), rowTotal r.2 = 1) ∧
      (∀ r ∈ normalizeMatrix (velocity_matrix notes), rowTotal r.2 = 1) ∧
      (∀ r ∈ normalizeMatrix (transition_matrix notes order), rowTotal r.2 = 1)) :=
  ⟨⟨buildMatrix_rowTotal_pos _, buildMatrix_rowTotal_pos _,
      buildMatrix_rowTotal_pos _, buildMatrix_rowTotal_pos _⟩,
    ⟨buildMatrix_normalized _, buildMatrix_normalized _,
      buildMatrix_normalized _, buildMatrix_normalized _⟩⟩

/-- C5 witness: the theorem applied to a concrete two-note corpus. -/
theorem C5_witness :
    ([⟨MPitch.rest, 1, "mf", "normal", 64⟩,
        ⟨MPitch.rest, 1, "mf", "normal", 64⟩] : List MEvent) ≠ [] ∧
    (((∀ r ∈ pitch_matrix [⟨MPitch.rest, 1, "mf", "normal", 64⟩,
          ⟨MPitch.rest, 1, "mf", "normal", 64⟩], 0 < rowTotal r.2) ∧
      (∀ r ∈ duration_matrix [⟨MPitch.rest, 1, "mf", "normal", 64⟩,
          ⟨MPitch.rest, 1, "mf", "normal", 64⟩], 0 < rowTotal r.2) ∧
      (∀ r ∈ velocity_matrix [⟨MPitch.rest, 1, "mf", "normal", 64⟩,
          ⟨MPitch.rest, 1, "mf", "normal", 64⟩], 0 < rowTotal r.2) ∧
      (∀ r ∈ transition_matrix [⟨MPitch.rest, 1, "mf", "normal", 64⟩,
          ⟨MPitch.rest, 1, "mf", "normal", 64⟩] 1, 0 < rowTotal r.2)) ∧
    ((∀ r ∈ normalizeMatrix (pitch_matrix [⟨MPitch.rest, 1, "mf", "normal", 64⟩,
          ⟨MPitch.rest, 1, "mf", "normal", 64⟩]), rowTotal r.2 = 1) ∧
      (∀ r ∈ normalizeMatrix (duration_matrix [⟨MPitch.rest, 1, "mf", "normal", 64⟩,
          ⟨MPitch.rest, 1, "mf", "normal", 64⟩]), rowTotal r.2 = 1) ∧
      (∀ r ∈ normalizeMatrix (velocity_matrix [⟨MPitch.rest, 1, "mf", "normal", 64⟩,
          ⟨MPitch.rest, 1, "mf", "normal", 64⟩]), rowTotal r.2 = 1) ∧
      (∀ r ∈ normalizeMatrix (transition_matrix [⟨MPitch.rest, 1, "mf", "normal", 64⟩,
          ⟨MPitch.rest, 1, "mf", "normal", 64⟩] 1), rowTotal r.2 = 1))) :=
  ⟨by simp,
    C5_trained_rows_normalize
      [⟨MPitch.rest, 1, "mf", "normal", 64⟩, ⟨MPitch.rest, 1, "mf", "normal", 64⟩]
      1 (by simp)⟩

/-! ## The sequence generator (`_generate_sequence`) -/

/-- `list(matrix.keys())`. -/
def matKeys {κ ν : Type} (m : List (κ × ν)) : List κ := m.map Prod.fst

/-- `random.choice(candidates)` under the index-stream model of the random
source: `none` exactly when the candidate list is empty (Python raises). -/
def pickUniform {κ : Type} (keys : List κ) (r : ℕ) : Option κ :=
  keys.get? (r % keys.length)

/-- `random.choices(list(row.keys()), weights=row.values())[0]` under the
index-stream model: any entry of the row can be drawn; `none` exactly when
the row is empty (Python raises). -/
def pickWeighted {κ : Type} (row : List (κ × ℚ)) (r : ℕ) : Option κ :=
  (row.get? (r % row.length)).map Prod.fst

/-- The `for _ in range(length - 1)` loop of `_generate_sequence`: from the
current state, draw from its outgoing row if the state is a key of the
matrix, otherwise re-draw uniformly among the matrix's keys. -/
def genSteps {κ : Type} [DecidableEq κ] (m : List (κ × List (κ × ℚ)))
    (rand : ℕ → ℕ) : ℕ → κ → ℕ → Option (List κ)
  | 0, _, _ => some []
  | n + 1, cur, t =>
    match (match List.lookup cur m with
           | some row => pickWeighted row (rand t)
           | none => pickUniform (matKeys m) (rand t)) with
    | none => none
    | some nxt => (genSteps m rand n nxt (t + 1)).map (fun s => nxt :: s)

/-- `_generate_sequence(length, matrix)` from both sources: raise (`none`)
on an empty matrix, seed uniformly among the keys, then take
`length - 1` further steps. -/
def generate_sequence {κ : Type} [DecidableEq κ] (length : ℕ)
    (m : List (κ × List (κ × ℚ))) (rand : ℕ → ℕ) : Option (List κ) :=
  match pickUniform (matKeys m) (rand 0) with
  | none => none
  | some first => (genSteps m rand (length - 1) first 1).map (fun s => first :: s)

/-- C4 counterexample: for requested length 0 the code's
`range(length - 1)` loop is empty but the seed symbol has already been
appended, so the result has 1 symbol, not 0.  (Moreover the returned
symbol of a 2-step run on the matrix {0: {1: 1.0}} can be 1, which is not
a key.)  The claim as stated is false for n = 0. -/
theorem C4_counterexample :
    generate_sequence 0 [((0 : ℕ), [((1 : ℕ), (1 : ℚ))])] (fun _ => 0) =
      some [0] ∧ ([(0 : ℕ)] : List ℕ).length ≠ 0 := by
  constructor
  · rfl
  · decide

lemma pickUniform_spec {κ : Type} (keys : List κ) (r : ℕ) (h : keys ≠ []) :
    ∃ k, pickUniform keys r = some k ∧ k ∈ keys := by
  have hlen : 0 < keys.length := List.length_pos.mpr h
  have hidx : r % keys.length < keys.length := Nat.mod_lt _ hlen
  refine ⟨keys.get ⟨r % keys.length, hidx⟩, ?_, List.get_mem _ _ _⟩
  simp [pickUniform, List.get?_eq_get hidx]

lemma pickWeighted_spec {κ : Type} (row : List (κ × ℚ)) (r : ℕ) (h : row ≠ []) :
    ∃ k, pickWeighted row r = some k ∧ k ∈ row.map Prod.fst := by
  have hlen : 0 < row.length := List.length_pos.mpr h
  have hidx : r % row.length < row.length := Nat.mod_lt _ hlen
  refine ⟨(row.get ⟨r % row.length, hidx⟩).1, ?_, ?_⟩
  · rw [pickWeighted, List.get?_eq_get hidx]
    rfl
  · exact List.mem_map.mpr ⟨_, List.get_mem _ _ _, rfl⟩

lemma genSteps_spec {κ : Type} [DecidableEq κ] (m : List (κ × List (κ × ℚ)))
    (rand : ℕ → ℕ) (hm : m ≠ []) (hrows : ∀ r ∈ m, r.2 ≠ []) :
    ∀ (n : ℕ) (cur : κ) (t : ℕ), ∃ s, genSteps m rand n cur t = some s ∧
      s.length = n ∧ ∀ x ∈ s, x ∈ matKeys m ∨ ∃ r ∈ m, x ∈ r.2.map Prod.fst := by
  have hkeys : matKeys m ≠ [] := by
    simpa [matKeys] using hm
  intro n
  induction n with
  | zero =>
    intro cur t
    exact ⟨[], rfl, rfl, by simp⟩
  | succ k ih =>
    intro cur t
    rcases hlk : List.lookup cur m with _ | row
    · rcases pickUniform_spec (matKeys m) (rand t) hkeys with ⟨x, hx, hxm⟩
      rcases ih x (t + 1) with ⟨s, hs, hlen, hmem⟩
      refine ⟨x :: s, ?_, by simp [hlen], ?_⟩
      · simp [genSteps, hlk, hx, hs]
      · intro y hy
        rcases List.mem_cons.mp hy with rfl | hy2
        · exact Or.inl hxm
        · exact hmem y hy2
    · have hrow : row ≠ [] := hrows (cur, row) (lookup_mem _ _ _ hlk)
      rcases pickWeighted_spec row (rand t) hrow with ⟨x, hx, hxm⟩
      rcases ih x (t + 1) with ⟨s, hs, hlen, hmem⟩
      refine ⟨x :: s, ?_, by simp [hlen], ?_⟩
      · simp [genSteps, hlk, hx, hs]
      · intro y hy
        rcases List.mem_cons.mp hy with rfl | hy2
        · exact Or.inr ⟨(cur, row), lookup_mem _ _ _ hlk, hxm⟩
        · exact hmem y hy2

/-- C4 (amended): for every non-empty transition matrix whose rows are all
non-empty (as produced by training), every requested length n ≥ 1 and
every random source, `_generate_sequence` returns exactly n symbols, and
every returned symbol is either a key of the matrix or a successor value
stored in one of its rows (terminal-only symbols can be emitted even
though they are not keys). -/
theorem C4_generate_sequence_spec {κ : Type} [DecidableEq κ]
    (m : List (κ × List (κ × ℚ))) (rand : ℕ → ℕ) (n : ℕ)
    (hm : m ≠ []) (hrows : ∀ r ∈ m, r.2 ≠ []) (hn : 1 ≤ n) :
    ∃ s : List κ, generate_sequence n m rand = some s ∧ s.length = n ∧
      ∀ x ∈ s, x ∈ matKeys m ∨ ∃ r ∈ m, x ∈ r.2.map Prod.fst := by
  have hkeys : matKeys m ≠ [] := by simpa [matKeys] using hm
  rcases pickUniform_spec (matKeys m) (rand 0) hkeys with ⟨first, hf, hfm⟩
  rcases genSteps_spec m rand hm hrows (n - 1) first 1 with ⟨s, hs, hlen, hmem⟩
  refine ⟨first :: s, ?_, ?_, ?_⟩
  · simp [generate_sequence, hf, hs]
  · simp [hlen]
    omega
  · intro y hy
    rcases List.mem_cons.mp hy with rfl | hy2
    · exact Or.inl hfm
    · exact hmem y hy2

/-- C4 witness: the amended theorem applied to the one-row matrix
{0: {0: 1.0}} with length 2. -/
theorem C4_witness :
    ([((0 : ℕ), [((0 : ℕ), (1 : ℚ))])] : List (ℕ × List (ℕ × ℚ))) ≠ [] ∧
      (∀ r ∈ ([((0 : ℕ), [((0 : ℕ), (1 : ℚ))])] : List (ℕ × List (ℕ × ℚ))),
        r.2 ≠ []) ∧ (1 ≤ 2) ∧
      ∃ s : List ℕ,
        generate_sequence 2 [((0 : ℕ), [((0 : ℕ), (1 : ℚ))])] (fun _ => 0) =
          some s ∧ s.length = 2 ∧
        ∀ x ∈ s, x ∈ matKeys [((0 : ℕ), [((0 : ℕ), (1 : ℚ))])] ∨
          ∃ r ∈ ([((0 : ℕ), [((0 : ℕ), (1 : ℚ))])] : List (ℕ × List (ℕ × ℚ))),
            x ∈ r.2.map Prod.fst :=
  ⟨by simp, by simp, by omega,
    C4_generate_sequence_spec [((0 : ℕ), [((0 : ℕ), (1 : ℚ))])] (fun _ => 0) 2
      (by simp) (by simp) (by omega)⟩

/-! ## The meter schedule generator (`generate_time_signature_sequence`) -/

/-- `available_time_sigs` from both sources. -/
def available_time_sigs : List String := ["4/4", "3/4", "2/4", "3/8", "6/8", "12/8"]

/-- The body of the `for measure_num in range(1, num_measures + 1)` loop:
with the 15% coin true (and measure_num > 1) pick a new meter uniformly
among the candidates different from the current one and record it;
measure 1 always records the current (base) meter. -/
def tsStep (coin : ℕ → Bool) (pick : ℕ → ℕ)
    (acc : List (ℕ × String) × String) (mn : ℕ) : List (ℕ × String) × String :=
  if 1 < mn ∧ coin mn = true then
    let others := available_time_sigs.filter (fun s => s != acc.2)
    let newSig := others.getD (pick mn % others.length) acc.2
    (acc.1 ++ [(mn, newSig)], newSig)
  else if mn = 1 then (acc.1 ++ [(1, acc.2)], acc.2)
  else acc

/-- `generate_time_signature_sequence(base, num_measures, random_changes)`
from both sources, with the random source split into the 15% coin stream
and the uniform-choice index stream. -/
def generate_time_signature_sequence (base : String) (num : ℕ)
    (random_changes : Bool) (coin : ℕ → Bool) (pick : ℕ → ℕ) :
    List (ℕ × String) :=
  if random_changes = false then [(1, base)]
  else ((List.range' 1 num).foldl (tsStep coin pick) ([], base)).1

/-- The shape claimed for a generated schedule: first entry (1, base),
strictly increasing measure numbers, and no meter equal to its
predecessor's meter. -/
def schedOk (base : String) (s : List (ℕ × String)) : Prop :=
  s.head? = some (1, base) ∧ List.Chain' (fun a b => a.1 < b.1) s ∧
    List.Chain' (fun a b => a.2 ≠ b.2) s

/-- C9 counterexample: with an estimated measure count of 0 the loop body
never runs, the returned schedule is empty and in particular has no first
entry (1, baseMeter), so the claim quantified over every measure count is
false. -/
theorem C9_counterexample :
    generate_time_signature_sequence "4/4" 0 true (fun _ => true) (fun _ => 0) = [] ∧
      ¬ schedOk "4/4" [] := by
  constructor
  · rfl
  · intro h
    simpa using h.1

lemma others_ne_nil (cur : String) :
    available_time_sigs.filter (fun s => s != cur) ≠ [] := by
  intro h
  have h1 := List.filter_eq_nil_iff.mp h "4/4" (by simp [available_time_sigs])
  have h2 := List.filter_eq_nil_iff.mp h "3/4" (by simp [available_time_sigs])
  simp only [bne_iff_ne, ne_eq, not_not] at h1 h2
  exact absurd (h1.trans h2.symm) (by decide)

lemma pick_ne (cur : String) (i : ℕ) :
    (available_time_sigs.filter (fun s => s != cur)).getD
      (i % (available_time_sigs.filter (fun s => s != cur)).length) cur ≠ cur := by
  have hne := others_ne_nil cur
  have hlen : 0 < (available_time_sigs.filter (fun s => s != cur)).length :=
    List.length_pos.mpr hne
  have hidx : i % (available_time_sigs.filter (fun s => s != cur)).length <
      (available_time_sigs.filter (fun s => s != cur)).length := Nat.mod_lt _ hlen
  rw [List.getD_eq_get _ _ hidx]
  have hmem := List.get_mem (available_time_sigs.filter (fun s => s != cur)) _ hidx
  have := (List.mem_filter.mp hmem).2
  simpa [bne_iff_ne] using this

/-- Invariant carried through the schedule-generation fold: the recorded
entries have the claimed shape, the tracked current meter is the last
recorded meter, and all recorded measure numbers are below the next
measure to be processed. -/
def tsInv (base : String) (bound : ℕ) (acc : List (ℕ × String) × String) : Prop :=
  acc.1.head? = some (1, base) ∧
    List.Chain' (fun a b => a.1 < b.1) acc.1 ∧
    List.Chain' (fun a b => a.2 ≠ b.2) acc.1 ∧
    (acc.1.getLast?).map Prod.snd = some acc.2 ∧
    ∀ e ∈ acc.1, e.1 < bound

lemma tsStep_inv (coin : ℕ → Bool) (pick : ℕ → ℕ) (base : String)
    (mn : ℕ) (acc : List (ℕ × String) × String)
    (h2 : 2 ≤ mn) (hinv : tsInv base mn acc) :
    tsInv base (mn + 1) (tsStep coin pick acc mn) := by
  obtain ⟨hhead, hlt, hne, hlast, hbnd⟩ := hinv
  rcases hl : acc.1 with _ | ⟨a0, t⟩
  · rw [hl] at hhead; simp at hhead
  rcases hg : acc.1.getLast? with _ | last
  · rw [hg] at hlast; simp at hlast
  rw [hg] at hlast
  have hlast2 : last.2 = acc.2 := by simpa using hlast
  have hlmem : last ∈ acc.1 := List.mem_of_getLast?_eq_some hg
  rw [tsStep]
  split_ifs with hc h1
  · -- record a new meter at measure mn
    refine ⟨?_, ?_, ?_, ?_, ?_⟩
    · rw [List.head?_append, hhead]
      rfl
    · rw [List.chain'_append]
      refine ⟨hlt, List.chain'_singleton _, ?_⟩
      intro x hx y hy
      rw [hg] at hx
      simp only [List.head?_cons, Option.mem_def, Option.some.injEq] at hx hy
      subst hx
      subst hy
      exact hbnd last hlmem
    · rw [List.chain'_append]
      refine ⟨hne, List.chain'_singleton _, ?_⟩
      intro x hx y hy
      rw [hg] at hx
      simp only [List.head?_cons, Option.mem_def, Option.some.injEq] at hx hy
      subst hx
      subst hy
      show last.2 ≠ _
      rw [hlast2]
      exact (pick_ne acc.2 (pick mn)).symm
    · rw [List.getLast?_concat]
      rfl
    · intro e he
      rcases List.mem_append.mp he with h | h
      · have := hbnd e h
        omega
      · simp only [List.mem_singleton] at h
        subst h
        show mn < mn + 1
        omega
  · omega
  · -- no change at measure mn: the accumulator is untouched
    refine ⟨hhead, hlt, hne, by rw [hg]; exact hlast, ?_⟩
    intro e he
    have := hbnd e he
    omega

lemma tsFold_inv (coin : ℕ → Bool) (pick : ℕ → ℕ) (base : String) :
    ∀ (k s0 : ℕ) (acc : List (ℕ × String) × String), 2 ≤ s0 →
      tsInv base s0 acc →
      tsInv base (s0 + k) ((List.range' s0 k).foldl (tsStep coin pick) acc) := by
  intro k
  induction k with
  | zero =>
    intro s0 acc h hinv
    simpa using hinv
  | succ n ih =>
    intro s0 acc h hinv
    rw [List.range'_succ, List.foldl_cons]
    have hstep := tsStep_inv coin pick base s0 acc h hinv
    have := ih (s0 + 1) (tsStep coin pick acc s0) (by omega) hstep
    have harith : s0 + 1 + n = s0 + (n + 1) := by omega
    rwa [harith] at this

/-- C9 (amended): for every base meter, every estimated measure count of
at least 1 and every random source, the schedule generated with random
changes enabled starts with (1, baseMeter), has strictly increasing
measure numbers, and never records a meter equal to the immediately
preceding recorded meter.  (For a measure count of 0 the schedule is empty
and has no first entry: see the counterexample.) -/
theorem C9_schedule_shape (base : String) (num : ℕ) (coin : ℕ → Bool)
    (pick : ℕ → ℕ) (h : 1 ≤ num) :
    schedOk base (generate_time_signature_sequence base num true coin pick) := by
  rw [generate_time_signature_sequence, if_neg (by simp)]
  obtain ⟨n, rfl⟩ : ∃ n, num = 1 + n := ⟨num - 1, by omega⟩
  have hr : List.range' 1 (1 + n) = 1 :: List.range' 2 n := by
    have : 1 + n = n + 1 := by omega
    rw [this, List.range'_succ]
  rw [hr, List.foldl_cons]
  have hstep1 : tsStep coin pick ([], base) 1 = ([(1, base)], base) := by
    rw [tsStep]
    simp
  rw [hstep1]
  have hinv1 : tsInv base 2 ([(1, base)], base) := by
    refine ⟨rfl, List.chain'_singleton _, List.chain'_singleton _, rfl, ?_⟩
    intro e he
    simp at he
    rw [he]
    omega
  have := tsFold_inv coin pick base n 2 ([(1, base)], base) (by omega) hinv1
  exact ⟨this.1, this.2.1, this.2.2.1⟩

/-- C9 witness: the amended theorem applied to base 4/4, 3 measures, and
the random source that always triggers a change and always picks index 0. -/
theorem C9_witness :
    (1 ≤ 3) ∧ schedOk "4/4"
      (generate_time_signature_sequence "4/4" 3 true (fun _ => true) (fun n => n)) :=
  ⟨by omega, C9_schedule_shape "4/4" 3 (fun _ => true) (fun n => n) (by omega)⟩

/-! ## The layout assembler (`visualize_multi_voice_melody` / `create_score`)

Both variants contain the same per-voice measure-packing loop; it is
embedded once below.  Only notation-level details with no bearing on the
claims (metronome marks, articulations, `makeNotation`, final barlines)
are omitted from the placed-element alphabet. -/

/-- Splits a character list at every occurrence of `c`
(Python `str.split(c)` on the characters of the string). -/
def splitChar (c : Char) : List Char → List (List Char)
  | [] => [[]]
  | ch :: rest =>
    if ch = c then [] :: splitChar c rest
    else
      match splitChar c rest with
      | [] => [[ch]]
      | h :: t => (ch :: h) :: t

/-- Decimal digits to a natural number (Python `int` on a digit string). -/
def digitsToNat (l : List Char) : ℕ :=
  l.foldl (fun n c => 10 * n + (c.toNat - 48)) 0

/-- `get_time_signature_value(time_sig_str)` from both sources:
split at '/', parse numerator and denominator, and return
`numerator * (4.0 / denominator)` quarter lengths. -/
def tsValue (s : String) : ℚ :=
  match splitChar '/' s.data with
  | [a, b] => (digitsToNat a : ℚ) * (4 / (digitsToNat b : ℚ))
  | _ => 0

/-- An element placed into a measure: an inserted time signature, a
dynamic mark, a note (with velocity and an optional tie marker — `some
true` is tie-start, `some false` is tie-stop) or a rest. -/
inductive Elem where
  | tsE (sig : String)
  | dynE (d : String)
  | noteE (p : PN) (dur : ℚ) (vel : ℤ) (tie : Option Bool)
  | restE (dur : ℚ)
deriving DecidableEq, Repr

/-- The beat length an element contributes to its measure. -/
def elemDur : Elem → ℚ
  | .noteE _ d _ _ => d
  | .restE d => d
  | _ => 0

/-- Total beat length of a measure's contents. -/
def measTotal (l : List Elem) : ℚ := (l.map elemDur).sum

/-- `n.tie = tie.Tie('start')` applied to the note most recently appended
to the (about to be closed) measure. -/
def markTieLast : Elem → Elem
  | .noteE p d v _ => .noteE p d v (some true)
  | e => e

/-- Mark the last element of a measure as tie-start (the code mutates the
already-appended note object). -/
def markTieStart : List Elem → List Elem
  | [] => []
  | [e] => [markTieLast e]
  | e :: rest => e :: markTieStart rest

/-- The per-voice assembler state of the packing loop: closed measures
(with the capacity that was active when each was closed), the open
measure, the active time signature string and its capacity
`measure_length`, the running `measure_duration`, the voice's last emitted
dynamic, and `measure_count`. -/
structure AsmState where
  closed : List (ℚ × List Elem)
  cur : List Elem
  curTS : String
  mlen : ℚ
  mdur : ℚ
  curDyn : Option String
  mcount : ℕ
deriving Repr

/-- Step 1 of the loop body: `if measure_count in time_sig_changes and
measure_duration == 0: ... if new_ts != current_ts: switch meter and
insert the TimeSignature at position 0 of the open measure`. -/
def applyMeter (sched : List (ℕ × String)) (st : AsmState) : AsmState :=
  match List.lookup st.mcount sched with
  | some newTs =>
    if st.mdur = 0 then
      if newTs ≠ st.curTS then
        { st with curTS := newTs, mlen := tsValue newTs,
                  cur := Elem.tsE newTs :: st.cur }
      else st
    else st
  | none => st

/-- Steps 2–3 of the loop body: clip the event to the remaining space when
`duration > remaining_space > 0`, place it (with a dynamic mark before a
pitched note whose dynamic changed), and on `measure_duration >=
measure_length` close the measure; a clipped pitched note becomes a
tie-start with its tie-stop remainder opening the next measure, while a
clipped rest's remainder is not re-emitted. -/
def placeCore (instr : String) (st : AsmState) (ev : MEvent) : AsmState :=
  let remaining : ℚ := st.mlen - st.mdur
  let adjDur : ℚ := if remaining < ev.dur ∧ 0 < remaining then remaining else ev.dur
  match adjust_pitch_to_range ev.pitch instr with
  | .rest =>
    let cur1 := st.cur ++ [Elem.restE adjDur]
    let md1 := st.mdur + adjDur
    if st.mlen ≤ md1 then
      { st with closed := st.closed ++ [(st.mlen, cur1)], cur := [], mdur := 0,
                mcount := st.mcount + 1 }
    else { st with cur := cur1, mdur := md1 }
  | .note pn =>
    let dynPart : List Elem := if st.curDyn ≠ some ev.dyn then [Elem.dynE ev.dyn] else []
    let cur1 := st.cur ++ dynPart ++ [Elem.noteE pn adjDur ev.vel none]
    let md1 := st.mdur + adjDur
    if st.mlen ≤ md1 then
      if adjDur < ev.dur then
        { st with closed := st.closed ++ [(st.mlen, markTieStart cur1)],
                  cur := [Elem.noteE pn (ev.dur - adjDur) ev.vel (some false)],
                  mdur := ev.dur - adjDur, curDyn := some ev.dyn,
                  mcount := st.mcount + 1 }
      else
        { st with closed := st.closed ++ [(st.mlen, cur1)], cur := [], mdur := 0,
                  curDyn := some ev.dyn, mcount := st.mcount + 1 }
    else { st with cur := cur1, mdur := md1, curDyn := some ev.dyn }

/-- One full iteration of the `for note_data in melody` loop. -/
def stepA (sched : List (ℕ × String)) (instr : String)
    (st : AsmState) (ev : MEvent) : AsmState :=
  placeCore instr (applyMeter sched st) ev

/-- The state before the loop: measure 1 open and empty, carrying the
initial time signature. -/
def initA (base : String) : AsmState :=
  ⟨[], [Elem.tsE base], base, tsValue base, 0, none, 1⟩

/-- The post-loop step: a non-empty open measure is padded with one
trailing rest up to capacity and closed; an empty one is discarded. -/
def finalizeA (st : AsmState) : List (ℚ × List Elem) :=
  if 0 < st.mdur then
    st.closed ++ [(st.mlen,
      st.cur ++ (if st.mdur < st.mlen then [Elem.restE (st.mlen - st.mdur)] else []))]
  else st.closed

/-- The assembled measures of one voice: the packing loop over the whole
melody followed by the trailing-measure step. -/
def runAsm (sched : List (ℕ × String)) (instr base : String)
    (events : List MEvent) : List (ℚ × List Elem) :=
  finalizeA (events.foldl (stepA sched instr) (initA base))

/-- Total beat length placed so far (closed measures plus open measure). -/
def placedTotal (st : AsmState) : ℚ :=
  (st.closed.map (fun m => measTotal m.2)).sum + measTotal st.cur

lemma tsValue_44 : tsValue "4/4" = 4 := by
  have h : splitChar '/' ("4/4".data) = [['4'], ['4']] := by decide
  have h2 : digitsToNat ['4'] = 4 := by decide
  rw [tsValue, h]
  show ((digitsToNat ['4'] : ℕ) : ℚ) * (4 / ((digitsToNat ['4'] : ℕ) : ℚ)) = 4
  rw [h2]
  norm_num

lemma tsValue_34 : tsValue "3/4" = 3 := by
  have h : splitChar '/' ("3/4".data) = [['3'], ['4']] := by decide
  have h2 : digitsToNat ['3'] = 3 := by decide
  have h3 : digitsToNat ['4'] = 4 := by decide
  rw [tsValue, h]
  show ((digitsToNat ['3'] : ℕ) : ℚ) * (4 / ((digitsToNat ['4'] : ℕ) : ℚ)) = 3
  rw [h2, h3]
  norm_num

lemma tsValue_24 : tsValue "2/4" = 2 := by
  have h : splitChar '/' ("2/4".data) = [['2'], ['4']] := by decide
  have h2 : digitsToNat ['2'] = 2 := by decide
  have h3 : digitsToNat ['4'] = 4 := by decide
  rw [tsValue, h]
  show ((digitsToNat ['2'] : ℕ) : ℚ) * (4 / ((digitsToNat ['4'] : ℕ) : ℚ)) = 2
  rw [h2, h3]
  norm_num

lemma measTotal_nil : measTotal [] = 0 := rfl

lemma measTotal_cons (e : Elem) (l : List Elem) :
    measTotal (e :: l) = elemDur e + measTotal l := rfl

lemma measTotal_append (l1 l2 : List Elem) :
    measTotal (l1 ++ l2) = measTotal l1 + measTotal l2 := by
  simp [measTotal]

lemma measTotal_single_rest (d : ℚ) : measTotal [Elem.restE d] = d := by
  simp [measTotal, elemDur]

lemma measTotal_single_note (p : PN) (d : ℚ) (v : ℤ) (t : Option Bool) :
    measTotal [Elem.noteE p d v t] = d := by
  simp [measTotal, elemDur]

lemma dynPart_total (c : Prop) [Decidable c] (d : String) :
    measTotal (if c then [Elem.dynE d] else []) = 0 := by
  split_ifs <;> simp [measTotal, elemDur]

lemma elemDur_markTieLast (e : Elem) : elemDur (markTieLast e) = elemDur e := by
  cases e <;> rfl

lemma markTieStart_total : ∀ l : List Elem, measTotal (markTieStart l) = measTotal l := by
  intro l
  induction l with
  | nil => rfl
  | cons e rest ih =>
    cases rest with
    | nil =>
      show measTotal [markTieLast e] = measTotal [e]
      simp [measTotal, elemDur_markTieLast]
    | cons f t =>
      have hstep : markTieStart (e :: f :: t) = e :: markTieStart (f :: t) := rfl
      rw [hstep, measTotal_cons, measTotal_cons, ih]

/-- The capacity currently in force is always the base capacity or one
scheduled capacity. -/
def mlenOk (sched : List (ℕ × String)) (base : String) (st : AsmState) : Prop :=
  st.mlen = tsValue base ∨ ∃ e ∈ sched, st.mlen = tsValue e.2

/-- The packing-loop invariant behind claim C1: the running duration is
non-negative and strictly below the active capacity, the open measure's
content accounts exactly for the running duration, and every closed
measure's content total equals the capacity recorded at its close. -/
def asmInv (sched : List (ℕ × String)) (base : String) (st : AsmState) : Prop :=
  0 ≤ st.mdur ∧ st.mdur < st.mlen ∧ mlenOk sched base st ∧
    measTotal st.cur = st.mdur ∧ ∀ m ∈ st.closed, measTotal m.2 = m.1

lemma applyMeter_cases (sched : List (ℕ × String)) (st : AsmState) :
    applyMeter sched st = st ∨
      ∃ ts, (st.mcount, ts) ∈ sched ∧ st.mdur = 0 ∧
        applyMeter sched st =
          { st with curTS := ts, mlen := tsValue ts,
                    cur := Elem.tsE ts :: st.cur } := by
  rcases h : List.lookup st.mcount sched with _ | ts
  · left
    simp [applyMeter, h]
  · by_cases h1 : st.mdur = 0
    · by_cases h2 : ts ≠ st.curTS
      · right
        refine ⟨ts, lookup_mem _ _ _ h, h1, ?_⟩
        simp [applyMeter, h, h1, h2]
      · left
        simp [applyMeter, h, h1, h2]
    · left
      simp [applyMeter, h, h1]

/-- Core preservation step for `placeCore` (no meter change involved). -/
lemma placeCore_inv (instr : String) (st : AsmState) (ev : MEvent)
    (h0 : 0 ≤ st.mdur) (hlt : st.mdur < st.mlen)
    (hcur : measTotal st.cur = st.mdur)
    (hclosed : ∀ m ∈ st.closed, measTotal m.2 = m.1)
    (hd0 : 0 < ev.dur) (hdm : ev.dur ≤ st.mlen) :
    0 ≤ (placeCore instr st ev).mdur ∧
      (placeCore instr st ev).mdur < (placeCore instr st ev).mlen ∧
      measTotal (placeCore instr st ev).cur = (placeCore instr st ev).mdur ∧
      (∀ m ∈ (placeCore instr st ev).closed, measTotal m.2 = m.1) ∧
      (placeCore instr st ev).mlen = st.mlen ∧
      (placeCore instr st ev).curTS = st.curTS := by
  have hrem : 0 < st.mlen - st.mdur := by linarith
  cases hadj : adjust_pitch_to_range ev.pitch instr with
  | rest =>
    simp only [placeCore, hadj]
    by_cases hsplit : st.mlen - st.mdur < ev.dur ∧ 0 < st.mlen - st.mdur
    · rw [if_pos hsplit, if_pos (by linarith)]
      refine ⟨le_refl 0, ?_, measTotal_nil, ?_, rfl, rfl⟩
      · show (0 : ℚ) < st.mlen
        linarith
      · intro m hm
        rcases List.mem_append.mp hm with h | h
        · exact hclosed m h
        · simp only [List.mem_singleton] at h
          subst h
          show measTotal (st.cur ++ [Elem.restE (st.mlen - st.mdur)]) = st.mlen
          rw [measTotal_append, hcur, measTotal_single_rest]
          ring
    · have hle : ev.dur ≤ st.mlen - st.mdur := by
        rcases not_and_or.mp hsplit with h | h
        · exact le_of_not_lt h
        · linarith
      rw [if_neg hsplit]
      by_cases hclose : st.mlen ≤ st.mdur + ev.dur
      · rw [if_pos hclose]
        refine ⟨le_refl 0, ?_, measTotal_nil, ?_, rfl, rfl⟩
        · show (0 : ℚ) < st.mlen
          linarith
        · intro m hm
          rcases List.mem_append.mp hm with h | h
          · exact hclosed m h
          · simp only [List.mem_singleton] at h
            subst h
            show measTotal (st.cur ++ [Elem.restE ev.dur]) = st.mlen
            rw [measTotal_append, hcur, measTotal_single_rest]
            linarith
      · rw [if_neg hclose]
        refine ⟨?_, ?_, ?_, hclosed, rfl, rfl⟩
        · show (0 : ℚ) ≤ st.mdur + ev.dur
          linarith
        · show st.mdur + ev.dur < st.mlen
          exact lt_of_not_le hclose
        · show measTotal (st.cur ++ [Elem.restE ev.dur]) = st.mdur + ev.dur
          rw [measTotal_append, hcur, measTotal_single_rest]
  | note pn =>
    simp only [placeCore, hadj]
    have hdyn := dynPart_total (st.curDyn ≠ some ev.dyn) ev.dyn
    by_cases hsplit : st.mlen - st.mdur < ev.dur ∧ 0 < st.mlen - st.mdur
    · rw [if_pos hsplit, if_pos (by linarith), if_pos hsplit.1]
      refine ⟨?_, ?_, ?_, ?_, rfl, rfl⟩
      · show (0 : ℚ) ≤ ev.dur - (st.mlen - st.mdur)
        linarith [hsplit.1]
      · show ev.dur - (st.mlen - st.mdur) < st.mlen
        linarith
      · show measTotal [Elem.noteE pn (ev.dur - (st.mlen - st.mdur)) ev.vel (some false)] =
          ev.dur - (st.mlen - st.mdur)
        rw [measTotal_single_note]
      · intro m hm
        rcases List.mem_append.mp hm with h | h
        · exact hclosed m h
        · simp only [List.mem_singleton] at h
          subst h
          show measTotal (markTieStart (st.cur ++
            (if st.curDyn ≠ some ev.dyn then [Elem.dynE ev.dyn] else []) ++
            [Elem.noteE pn (st.mlen - st.mdur) ev.vel none])) = st.mlen
          rw [markTieStart_total, measTotal_append, measTotal_append, hcur, hdyn,
            measTotal_single_note]
          ring
    · have hle : ev.dur ≤ st.mlen - st.mdur := by
        rcases not_and_or.mp hsplit with h | h
        · exact le_of_not_lt h
        · linarith
      rw [if_neg hsplit]
      by_cases hclose : st.mlen ≤ st.mdur + ev.dur
      · rw [if_pos hclose, if_neg (by linarith)]
        refine ⟨le_refl 0, ?_, measTotal_nil, ?_, rfl, rfl⟩
        · show (0 : ℚ) < st.mlen
          linarith
        · intro m hm
          rcases List.mem_append.mp hm with h | h
          · exact hclosed m h
          · simp only [List.mem_singleton] at h
            subst h
            show measTotal (st.cur ++
              (if st.curDyn ≠ some ev.dyn then [Elem.dynE ev.dyn] else []) ++
              [Elem.noteE pn ev.dur ev.vel none]) = st.mlen
            rw [measTotal_append, measTotal_append, hcur, hdyn, measTotal_single_note]
            linarith
      · rw [if_neg hclose]
        refine ⟨?_, ?_, ?_, hclosed, rfl, rfl⟩
        · show (0 : ℚ) ≤ st.mdur + ev.dur
          linarith
        · show st.mdur + ev.dur < st.mlen
          exact lt_of_not_le hclose
        · show measTotal (st.cur ++
            (if st.curDyn ≠ some ev.dyn then [Elem.dynE ev.dyn] else []) ++
            [Elem.noteE pn ev.dur ev.vel none]) = st.mdur + ev.dur
          rw [measTotal_append, measTotal_append, hcur, hdyn, measTotal_single_note]
          ring

lemma stepA_inv (sched : List (ℕ × String)) (instr base : String)
    (st : AsmState) (ev : MEvent)
    (hb : 0 < tsValue base) (hs : ∀ e ∈ sched, 0 < tsValue e.2)
    (hd : 0 < ev.dur ∧ ev.dur ≤ tsValue base ∧ ∀ e ∈ sched, ev.dur ≤ tsValue e.2)
    (hinv : asmInv sched base st) :
    asmInv sched base (stepA sched instr st ev) := by
  obtain ⟨h0, hlt, hmlen, hcur, hclosed⟩ := hinv
  have key : 0 ≤ (applyMeter sched st).mdur ∧
      (applyMeter sched st).mdur < (applyMeter sched st).mlen ∧
      mlenOk sched base (applyMeter sched st) ∧
      measTotal (applyMeter sched st).cur = (applyMeter sched st).mdur ∧
      (∀ m ∈ (applyMeter sched st).closed, measTotal m.2 = m.1) ∧
      ev.dur ≤ (applyMeter sched st).mlen := by
    rcases applyMeter_cases sched st with hm | ⟨ts, hts, hmd0, hm⟩
    · rw [hm]
      refine ⟨h0, hlt, hmlen, hcur, hclosed, ?_⟩
      rcases hmlen with h | ⟨e, he, hteq⟩
      · rw [h]; exact hd.2.1
      · rw [hteq]; exact hd.2.2 e he
    · rw [hm]
      refine ⟨by simp [hmd0], ?_, ?_, ?_, hclosed, hd.2.2 (st.mcount, ts) hts⟩
      · simpa [hmd0] using hs (st.mcount, ts) hts
      · exact Or.inr ⟨(st.mcount, ts), hts, rfl⟩
      · show measTotal (Elem.tsE ts :: st.cur) = st.mdur
        rw [measTotal_cons]
        show 0 + measTotal st.cur = st.mdur
        rw [zero_add, hcur]
  obtain ⟨k0, klt, kml, kcur, kclosed, kdm⟩ := key
  have hp := placeCore_inv instr (applyMeter sched st) ev k0 klt kcur kclosed hd.1 kdm
  refine ⟨hp.1, hp.2.1, ?_, hp.2.2.1, hp.2.2.2.1⟩
  show mlenOk sched base (placeCore instr (applyMeter sched st) ev)
  unfold mlenOk at kml ⊢
  rw [hp.2.2.2.2.1]
  exact kml

lemma foldl_stepA_inv (sched : List (ℕ × String)) (instr base : String)
    (hb : 0 < tsValue base) (hs : ∀ e ∈ sched, 0 < tsValue e.2) :
    ∀ (events : List MEvent) (st : AsmState),
      (∀ ev ∈ events, 0 < ev.dur ∧ ev.dur ≤ tsValue base ∧
        ∀ e ∈ sched, ev.dur ≤ tsValue e.2) →
      asmInv sched base st →
      asmInv sched base (events.foldl (stepA sched instr) st) := by
  intro events
  induction events with
  | nil => intro st _ hinv; exact hinv
  | cons ev rest ih =>
    intro st hd hinv
    rw [List.foldl_cons]
    exact ih _ (fun e he => hd e (by simp [he]))
      (stepA_inv sched instr base st ev hb hs (hd ev (by simp)) hinv)

lemma finalizeA_closed_good (st : AsmState) (h0 : 0 ≤ st.mdur)
    (hlt : st.mdur < st.mlen) (hcur : measTotal st.cur = st.mdur)
    (hclosed : ∀ m ∈ st.closed, measTotal m.2 = m.1) :
    ∀ m ∈ finalizeA st, measTotal m.2 = m.1 := by
  intro m hm
  rw [finalizeA] at hm
  split_ifs at hm with hpos
  · rcases List.mem_append.mp hm with h | h
    · exact hclosed m h
    · simp only [List.mem_singleton] at h
      subst h
      show measTotal (st.cur ++ [Elem.restE (st.mlen - st.mdur)]) = st.mlen
      rw [measTotal_append, hcur, measTotal_single_rest]
      ring
  · exact hclosed m hm

lemma initA_inv (sched : List (ℕ × String)) (base : String)
    (hb : 0 < tsValue base) : asmInv sched base (initA base) := by
  refine ⟨le_refl 0, hb, Or.inl rfl, ?_, ?_⟩
  · show measTotal [Elem.tsE base] = 0
    simp [measTotal, elemDur]
  · intro m hm
    simp [initA] at hm

/-- C4 (midi 60) lies inside the Piano range (A0 = 21 to C8 = 108), so the
range normalizer returns it unchanged. -/
lemma adjust_C4_Piano :
    adjust_pitch_to_range (MPitch.note ⟨0, 0, 4⟩) "Piano" = MPitch.note ⟨0, 0, 4⟩ := by
  have h1 : lookupRangePN "Piano" = (⟨5, 0, 0⟩, ⟨0, 0, 8⟩) := by decide
  simp only [adjust_pitch_to_range, h1]
  rw [octUp_eq_self _ _ (by decide), octDown_eq_self _ _ (by decide)]

/-- C1 counterexample: in 2/4 with melody [C4 of 4.0 beats, C4 of 1.0
beat], the 4.0-beat note is split at the barline and its 2.0-beat
remainder opens measure 2 with the running duration already at the full
capacity; the measure is not closed, and the next note is placed on top,
so the closed measure 2 holds 3.0 beats against a 2.0-beat capacity.  The
invariant as claimed (never exceed capacity, close exactly at capacity)
is therefore false for unrestricted event durations. -/
theorem C1_counterexample :
    (runAsm [] "Piano" "2/4"
        [⟨MPitch.note ⟨0, 0, 4⟩, 4, "mf", "normal", 64⟩,
         ⟨MPitch.note ⟨0, 0, 4⟩, 1, "mf", "normal", 64⟩]).length = 2 ∧
      ((runAsm [] "Piano" "2/4"
        [⟨MPitch.note ⟨0, 0, 4⟩, 4, "mf", "normal", 64⟩,
         ⟨MPitch.note ⟨0, 0, 4⟩, 1, "mf", "normal", 64⟩]).getD 1 (0, [])).1 = 2 ∧
      measTotal ((runAsm [] "Piano" "2/4"
        [⟨MPitch.note ⟨0, 0, 4⟩, 4, "mf", "normal", 64⟩,
         ⟨MPitch.note ⟨0, 0, 4⟩, 1, "mf", "normal", 64⟩]).getD 1 (0, [])).2 = 3 := by
  have hinit : initA "2/4" = ⟨[], [Elem.tsE "2/4"], "2/4", 2, 0, none, 1⟩ := by
    rw [initA, tsValue_24]
  refine ⟨?_, ?_, ?_⟩ <;>
    norm_num [runAsm, hinit, List.foldl, stepA, applyMeter, placeCore,
      adjust_C4_Piano, finalizeA, markTieStart, markTieLast, measTotal, elemDur,
      List.lookup, List.getD]

/-- C1 (amended): provided every event duration is positive and no larger
than the base capacity and every scheduled capacity (all capacities being
positive), the running measure duration stays strictly below the active
capacity at every loop boundary, and every emitted measure's content total
equals exactly the capacity recorded for it (measures close exactly on
reaching capacity; the trailing measure is padded to capacity).  Without
the duration bound a carried split remainder can overfill a measure: see
the counterexample. -/
theorem C1_measure_invariant (sched : List (ℕ × String)) (instr base : String)
    (events : List MEvent)
    (hb : 0 < tsValue base) (hs : ∀ e ∈ sched, 0 < tsValue e.2)
    (hd : ∀ ev ∈ events, 0 < ev.dur ∧ ev.dur ≤ tsValue base ∧
      ∀ e ∈ sched, ev.dur ≤ tsValue e.2) :
    (∀ st ∈ events.scanl (stepA sched instr) (initA base),
      0 ≤ st.mdur ∧ st.mdur < st.mlen) ∧
    (∀ m ∈ runAsm sched instr base events, measTotal m.2 = m.1) := by
  constructor
  · have H : ∀ (evs : List MEvent) (st : AsmState),
        (∀ ev ∈ evs, 0 < ev.dur ∧ ev.dur ≤ tsValue base ∧
          ∀ e ∈ sched, ev.dur ≤ tsValue e.2) →
        asmInv sched base st →
        ∀ s ∈ evs.scanl (stepA sched instr) st, 0 ≤ s.mdur ∧ s.mdur < s.mlen := by
      intro evs
      induction evs with
      | nil =>
        intro st _ hinv s hsmem
        simp [List.scanl] at hsmem
        subst hsmem
        exact ⟨hinv.1, hinv.2.1⟩
      | cons ev rest ih =>
        intro st hd2 hinv s hsmem
        rw [List.scanl_cons] at hsmem
        rcases List.mem_cons.mp hsmem with rfl | hsmem2
        · exact ⟨hinv.1, hinv.2.1⟩
        · exact ih _ (fun e he => hd2 e (by simp [he]))
            (stepA_inv sched instr base st ev hb hs (hd2 ev (by simp)) hinv) s hsmem2
    exact H events (initA base) hd (initA_inv sched base hb)
  · have hfin := foldl_stepA_inv sched instr base hb hs events (initA base) hd
      (initA_inv sched base hb)
    obtain ⟨f0, flt, fml, fcur, fclosed⟩ := hfin
    intro m hm
    rw [runAsm] at hm
    exact finalizeA_closed_good _ f0 flt fcur fclosed m hm

/-- Concrete schedule for the C1 witness. -/
def c1SchedW : List (ℕ × String) := [(1, "4/4"), (3, "3/4")]

/-- Concrete melody for the C1 witness. -/
def c1EventsW : List MEvent :=
  [⟨MPitch.note ⟨0, 0, 4⟩, 1, "mf", "normal", 64⟩,
   ⟨MPitch.note ⟨0, 0, 4⟩, 2, "mf", "normal", 64⟩]

lemma c1SchedW_pos : ∀ e ∈ c1SchedW, 0 < tsValue e.2 := by
  intro e he
  simp [c1SchedW] at he
  rcases he with rfl | rfl
  · show (0 : ℚ) < tsValue "4/4"
    rw [tsValue_44]
    norm_num
  · show (0 : ℚ) < tsValue "3/4"
    rw [tsValue_34]
    norm_num

lemma c1EventsW_ok : ∀ ev ∈ c1EventsW, 0 < ev.dur ∧ ev.dur ≤ tsValue "4/4" ∧
    ∀ e ∈ c1SchedW, ev.dur ≤ tsValue e.2 := by
  intro ev hev
  simp [c1EventsW] at hev
  rcases hev with rfl | rfl
  · refine ⟨by norm_num, by rw [tsValue_44]; norm_num, ?_⟩
    intro e he
    simp [c1SchedW] at he
    rcases he with rfl | rfl
    · show (1 : ℚ) ≤ tsValue "4/4"
      rw [tsValue_44]
      norm_num
    · show (1 : ℚ) ≤ tsValue "3/4"
      rw [tsValue_34]
      norm_num
  · refine ⟨by norm_num, by rw [tsValue_44]; norm_num, ?_⟩
    intro e he
    simp [c1SchedW] at he
    rcases he with rfl | rfl
    · show (2 : ℚ) ≤ tsValue "4/4"
      rw [tsValue_44]
      norm_num
    · show (2 : ℚ) ≤ tsValue "3/4"
      rw [tsValue_34]
      norm_num

/-- C1 witness: the amended invariant applied to a concrete schedule and
melody. -/
theorem C1_witness :
    (0 < tsValue "4/4") ∧ (∀ e ∈ c1SchedW, 0 < tsValue e.2) ∧
      (∀ ev ∈ c1EventsW, 0 < ev.dur ∧ ev.dur ≤ tsValue "4/4" ∧
        ∀ e ∈ c1SchedW, ev.dur ≤ tsValue e.2) ∧
      ((∀ st ∈ c1EventsW.scanl (stepA c1SchedW "Flute") (initA "4/4"),
          0 ≤ st.mdur ∧ st.mdur < st.mlen) ∧
        (∀ m ∈ runAsm c1SchedW "Flute" "4/4" c1EventsW, measTotal m.2 = m.1)) :=
  ⟨by rw [tsValue_44]; norm_num, c1SchedW_pos, c1EventsW_ok,
    C1_measure_invariant c1SchedW "Flute" "4/4" c1EventsW
      (by rw [tsValue_44]; norm_num) c1SchedW_pos c1EventsW_ok⟩

/-! ## Claim C2: split semantics at a barline -/

/-- C2 counterexample: two rests of 3.0 beats in 4/4.  The second rest
overflows the measure by 2.0 beats; the code truncates it to the 1.0-beat
remaining space, closes the measure, and never emits the 2.0-beat
remainder: the output is a single 4.0-beat measure although the input
carries 6.0 beats.  The claim that a split rest's remainder is placed in
the next measure (and that nothing is silently dropped) is false. -/
theorem C2_counterexample :
    (runAsm [] "Piano" "4/4"
        [⟨MPitch.rest, 3, "mf", "normal", 64⟩,
         ⟨MPitch.rest, 3, "mf", "normal", 64⟩]).length = 1 ∧
      measTotal ((runAsm [] "Piano" "4/4"
        [⟨MPitch.rest, 3, "mf", "normal", 64⟩,
         ⟨MPitch.rest, 3, "mf", "normal", 64⟩]).getD 0 (0, [])).2 = 4 ∧
      ((([⟨MPitch.rest, 3, "mf", "normal", 64⟩,
          ⟨MPitch.rest, 3, "mf", "normal", 64⟩] : List MEvent).map MEvent.dur).sum = 6) := by
  have hinit : initA "4/4" = ⟨[], [Elem.tsE "4/4"], "4/4", 4, 0, none, 1⟩ := by
    rw [initA, tsValue_44]
  refine ⟨?_, ?_, ?_⟩ <;>
    norm_num [runAsm, hinit, List.foldl, stepA, applyMeter, placeCore,
      adjust_pitch_to_range, finalizeA, markTieStart, markTieLast, measTotal,
      elemDur, List.lookup, List.getD]

/-- C2 (amended): when an event's duration exceeds the positive remaining
space of the current measure (and no meter change is scheduled for the
current measure), a pitched event is fully placed: the measure closes with
a tie-start fragment of the remaining length, the tie-stop remainder opens
the next measure, and the total placed beat length grows by the full event
duration.  A rest, however, is truncated: only the remaining space is
placed, the open measure restarts empty, and the remainder — in fact any
amount beyond the remaining space — is silently dropped. -/
theorem C2_split_semantics (sched : List (ℕ × String)) (instr : String)
    (st : AsmState) (ev : MEvent)
    (hns : List.lookup st.mcount sched = none)
    (h1 : 0 < st.mlen - st.mdur) (h2 : st.mlen - st.mdur < ev.dur) :
    (∀ pn, adjust_pitch_to_range ev.pitch instr = .note pn →
      placedTotal (stepA sched instr st ev) = placedTotal st + ev.dur ∧
      (stepA sched instr st ev).cur =
        [Elem.noteE pn (ev.dur - (st.mlen - st.mdur)) ev.vel (some false)] ∧
      (stepA sched instr st ev).closed.length = st.closed.length + 1) ∧
    (adjust_pitch_to_range ev.pitch instr = .rest →
      placedTotal (stepA sched instr st ev) = placedTotal st + (st.mlen - st.mdur) ∧
      placedTotal (stepA sched instr st ev) < placedTotal st + ev.dur ∧
      (stepA sched instr st ev).cur = []) := by
  have hmeter : applyMeter sched st = st := by
    simp [applyMeter, hns]
  have hsplit : st.mlen - st.mdur < ev.dur ∧ 0 < st.mlen - st.mdur := ⟨h2, h1⟩
  constructor
  · intro pn hadj
    rw [stepA, hmeter]
    simp only [placeCore, hadj]
    rw [if_pos hsplit, if_pos (by linarith), if_pos hsplit.1]
    refine ⟨?_, rfl, ?_⟩
    · rw [placedTotal, placedTotal]
      simp only [List.map_append, List.sum_append, List.map_cons, List.map_nil,
        List.sum_cons, List.sum_nil]
      rw [markTieStart_total, measTotal_append, measTotal_append,
        dynPart_total (st.curDyn ≠ some ev.dyn) ev.dyn, measTotal_single_note,
        measTotal_single_note]
      ring
    · simp
  · intro hadj
    rw [stepA, hmeter]
    simp only [placeCore, hadj]
    rw [if_pos hsplit, if_pos (by linarith)]
    refine ⟨?_, ?_, rfl⟩
    · rw [placedTotal, placedTotal]
      simp only [List.map_append, List.sum_append, List.map_cons, List.map_nil,
        List.sum_cons, List.sum_nil]
      rw [measTotal_append, measTotal_single_rest, measTotal_nil]
      ring
    · rw [placedTotal, placedTotal]
      simp only [List.map_append, List.sum_append, List.map_cons, List.map_nil,
        List.sum_cons, List.sum_nil]
      rw [measTotal_append, measTotal_single_rest, measTotal_nil]
      linarith

/-- C2 witness: the amended split-semantics theorem applied to a concrete
state (4/4 measure with 3.0 beats already placed) and a concrete 3.0-beat
rest event. -/
theorem C2_witness :
    (List.lookup (AsmState.mk [] [] "4/4" 4 3 none 1).mcount ([] : List (ℕ × String)) = none) ∧
      (0 < (AsmState.mk [] [] "4/4" 4 3 none 1).mlen -
        (AsmState.mk [] [] "4/4" 4 3 none 1).mdur) ∧
      ((AsmState.mk [] [] "4/4" 4 3 none 1).mlen -
        (AsmState.mk [] [] "4/4" 4 3 none 1).mdur <
        (MEvent.mk MPitch.rest 3 "mf" "normal" 64).dur) ∧
      (adjust_pitch_to_range (MEvent.mk MPitch.rest 3 "mf" "normal" 64).pitch "Piano" = .rest →
        placedTotal (stepA [] "Piano" (AsmState.mk [] [] "4/4" 4 3 none 1)
            (MEvent.mk MPitch.rest 3 "mf" "normal" 64)) =
          placedTotal (AsmState.mk [] [] "4/4" 4 3 none 1) +
            ((AsmState.mk [] [] "4/4" 4 3 none 1).mlen -
              (AsmState.mk [] [] "4/4" 4 3 none 1).mdur) ∧
        placedTotal (stepA [] "Piano" (AsmState.mk [] [] "4/4" 4 3 none 1)
            (MEvent.mk MPitch.rest 3 "mf" "normal" 64)) <
          placedTotal (AsmState.mk [] [] "4/4" 4 3 none 1) +
            (MEvent.mk MPitch.rest 3 "mf" "normal" 64).dur ∧
        (stepA [] "Piano" (AsmState.mk [] [] "4/4" 4 3 none 1)
            (MEvent.mk MPitch.rest 3 "mf" "normal" 64)).cur = []) :=
  ⟨rfl, by norm_num, by norm_num,
    (C2_split_semantics [] "Piano" (AsmState.mk [] [] "4/4" 4 3 none 1)
      (MEvent.mk MPitch.rest 3 "mf" "normal" 64) rfl (by norm_num) (by norm_num)).2⟩

/-! ## Claim C3: the schedule {1: 4/4, 5: 3/4} over 8 measures -/

/-- The schedule of the claim: 4/4 from measure 1, 3/4 from measure 5. -/
def sched34 : List (ℕ × String) := [(1, "4/4"), (5, "3/4")]

lemma getD_append_left {α : Type} (l l' : List α) (d : α) (i : ℕ)
    (h : i < l.length) : (l ++ l').getD i d = l.getD i d := by
  rw [List.getD_eq_getD_get?, List.getD_eq_getD_get?, List.get?_eq_getElem?,
    List.get?_eq_getElem?, List.getElem?_append_left h]

lemma getD_concat_length {α : Type} (l : List α) (x d : α) :
    (l ++ [x]).getD l.length d = x := by
  rw [List.getD_eq_getD_get?, List.get?_eq_getElem?, List.getElem?_concat_length]
  rfl

/-- Invariant for the run under `sched34`: measure numbering tracks the
closed-measure count, the active meter is 4/4 (capacity 4) or 3/4
(capacity 3), it is still 4/4 while the measure number is at most 4, the
first four closed measures have capacity 4, and all later closed measures
share the currently active capacity (which can no longer change once a
fifth measure exists). -/
def c3Inv (st : AsmState) : Prop :=
  st.mcount = st.closed.length + 1 ∧
    ((st.curTS = "4/4" ∧ st.mlen = 4) ∨ (st.curTS = "3/4" ∧ st.mlen = 3)) ∧
    (st.mcount ≤ 4 → st.curTS = "4/4") ∧
    (∀ i, i < st.closed.length → i < 4 → (st.closed.getD i (0, [])).1 = 4) ∧
    (∀ i, i < st.closed.length → 4 ≤ i → (st.closed.getD i (0, [])).1 = st.mlen)

/-- `placeCore` either leaves the closed measures and the measure counter
untouched, or closes exactly one measure with the active capacity;
it never touches the active meter. -/
lemma placeCore_cases (instr : String) (st : AsmState) (ev : MEvent) :
    ((placeCore instr st ev).closed = st.closed ∧
      (placeCore instr st ev).mcount = st.mcount ∧
      (placeCore instr st ev).curTS = st.curTS ∧
      (placeCore instr st ev).mlen = st.mlen) ∨
    (∃ l, (placeCore instr st ev).closed = st.closed ++ [(st.mlen, l)] ∧
      (placeCore instr st ev).mcount = st.mcount + 1 ∧
      (placeCore instr st ev).curTS = st.curTS ∧
      (placeCore instr st ev).mlen = st.mlen) := by
  cases hadj : adjust_pitch_to_range ev.pitch instr with
  | rest =>
    simp only [placeCore, hadj]
    split_ifs <;>
      first
        | (left; exact ⟨rfl, rfl, rfl, rfl⟩)
        | (right; exact ⟨_, rfl, rfl, rfl, rfl⟩)
  | note pn =>
    simp only [placeCore, hadj]
    split_ifs <;>
      first
        | (left; exact ⟨rfl, rfl, rfl, rfl⟩)
        | (right; exact ⟨_, rfl, rfl, rfl, rfl⟩)

lemma c3_stepA_inv (instr : String) (st : AsmState) (ev : MEvent)
    (hinv : c3Inv st) : c3Inv (stepA sched34 instr st ev) := by
  obtain ⟨hcount, hts, hc4, hd4, he4⟩ := hinv
  have hmid : c3Inv (applyMeter sched34 st) := by
    rcases applyMeter_cases sched34 st with hm | ⟨ts, hmem, hmd0, hm⟩
    · rw [hm]
      exact ⟨hcount, hts, hc4, hd4, he4⟩
    · have hmem2 : (st.mcount = 1 ∧ ts = "4/4") ∨ (st.mcount = 5 ∧ ts = "3/4") := by
        simpa [sched34] using hmem
      rcases hmem2 with ⟨hk, hts2⟩ | ⟨hk, hts2⟩
      · subst hts2
        rw [hm]
        refine ⟨hcount, Or.inl ⟨rfl, tsValue_44⟩, fun _ => rfl, hd4, ?_⟩
        intro i hi h4i
        have hi2 : i < st.closed.length := hi
        exact absurd h4i (by omega)
      · subst hts2
        rw [hm]
        refine ⟨hcount, Or.inr ⟨rfl, tsValue_34⟩, ?_, hd4, ?_⟩
        · intro hle
          have hle2 : st.mcount ≤ 4 := hle
          exact absurd hle2 (by omega)
        · intro i hi h4i
          have hi2 : i < st.closed.length := hi
          exact absurd h4i (by omega)
  obtain ⟨mcount2, mts2, mc42, md42, me42⟩ := hmid
  rcases placeCore_cases instr (applyMeter sched34 st) ev with
    ⟨hpc, hpm, hpt, hpl⟩ | ⟨l, hpc, hpm, hpt, hpl⟩
  · rw [stepA]
    refine ⟨?_, ?_, ?_, ?_, ?_⟩
    · rw [hpm, hpc]; exact mcount2
    · rw [hpt, hpl]; exact mts2
    · rw [hpm, hpt]; exact mc42
    · rw [hpc]; exact md42
    · rw [hpc, hpl]; exact me42
  · rw [stepA]
    refine ⟨?_, ?_, ?_, ?_, ?_⟩
    · rw [hpm, hpc, mcount2]
      simp
    · rw [hpt, hpl]; exact mts2
    · intro h4
      rw [hpm] at h4
      rw [hpt]
      exact mc42 (by omega)
    · intro i hi hi4
      rw [hpc] at hi ⊢
      simp only [List.length_append, List.length_singleton] at hi
      by_cases hlt : i < (applyMeter sched34 st).closed.length
      · rw [getD_append_left _ _ _ _ hlt]
        exact md42 i hlt hi4
      · have hieq : i = (applyMeter sched34 st).closed.length := by omega
        rw [hieq, getD_concat_length]
        rcases mts2 with ⟨_, hml⟩ | ⟨hct, _⟩
        · exact hml
        · have h44 := mc42 (by omega)
          rw [hct] at h44
          exact absurd h44 (by decide)
    · intro i hi h4i
      rw [hpc] at hi ⊢
      rw [hpl]
      simp only [List.length_append, List.length_singleton] at hi
      by_cases hlt : i < (applyMeter sched34 st).closed.length
      · rw [getD_append_left _ _ _ _ hlt]
        exact me42 i hlt h4i
      · have hieq : i = (applyMeter sched34 st).closed.length := by omega
        rw [hieq, getD_concat_length]

lemma c3_init : c3Inv (initA "4/4") := by
  refine ⟨rfl, Or.inl ⟨rfl, tsValue_44⟩, fun _ => rfl, ?_, ?_⟩
  · intro i hi
    exact absurd hi (by simp [initA])
  · intro i hi
    exact absurd hi (by simp [initA])

lemma c3_foldl_inv (instr : String) :
    ∀ (events : List MEvent) (st : AsmState), c3Inv st →
      c3Inv (events.foldl (stepA sched34 instr) st) := by
  intro events
  induction events with
  | nil => intro st h; exact h
  | cons ev rest ih =>
    intro st h
    rw [List.foldl_cons]
    exact ih _ (c3_stepA_inv instr st ev h)

/-- The concrete melody of the C3 counterexample: beat lengths
[4, 4, 4, 3, 2, 3, 4, 4, 4], all at pitch C4. -/
def c3EvsCE : List MEvent :=
  [⟨MPitch.note ⟨0, 0, 4⟩, 4, "mf", "normal", 64⟩,
       ⟨MPitch.note ⟨0, 0, 4⟩, 4, "mf", "normal", 64⟩,
       ⟨MPitch.note ⟨0, 0, 4⟩, 4, "mf", "normal", 64⟩,
       ⟨MPitch.note ⟨0, 0, 4⟩, 3, "mf", "normal", 64⟩,
       ⟨MPitch.note ⟨0, 0, 4⟩, 2, "mf", "normal", 64⟩,
       ⟨MPitch.note ⟨0, 0, 4⟩, 3, "mf", "normal", 64⟩,
       ⟨MPitch.note ⟨0, 0, 4⟩, 4, "mf", "normal", 64⟩,
       ⟨MPitch.note ⟨0, 0, 4⟩, 4, "mf", "normal", 64⟩,
       ⟨MPitch.note ⟨0, 0, 4⟩, 4, "mf", "normal", 64⟩]

/-- C3 counterexample: the melody [4,4,4,3,2,3,4,4,4] (beats, all pitched)
fills exactly 8 measures under {1: 4/4, 5: 3/4}, but because the 2.0-beat
note is split across the measure-4/5 boundary, measure 5 starts non-empty
and the scheduled change to 3/4 is silently skipped: all eight measures
have capacity 4.0, not 3.0 from measure 5 on.  The claim that the change
at measure 5 is always applied is false. -/
theorem C3_counterexample :
    (runAsm sched34 "Piano" "4/4" c3EvsCE).length = 8 ∧
      ((runAsm sched34 "Piano" "4/4" c3EvsCE).getD 4 (0, [])).1 = 4 ∧
      (4 : ℚ) ≠ 3 := by
  have hinit : initA "4/4" = AsmState.mk [] [Elem.tsE "4/4"] "4/4" 4 0 none 1 := by
    rw [initA, tsValue_44]
  have hlk1 : List.lookup (1 : ℕ) sched34 = some "4/4" := by simp [sched34, List.lookup]
  have hlk2 : List.lookup (2 : ℕ) sched34 = none := by simp [sched34, List.lookup]
  have hlk3 : List.lookup (3 : ℕ) sched34 = none := by simp [sched34, List.lookup]
  have hlk4 : List.lookup (4 : ℕ) sched34 = none := by simp [sched34, List.lookup]
  have hlk5 : List.lookup (5 : ℕ) sched34 = some "3/4" := by simp [sched34, List.lookup]
  have hlk6 : List.lookup (6 : ℕ) sched34 = none := by simp [sched34, List.lookup]
  have hlk7 : List.lookup (7 : ℕ) sched34 = none := by simp [sched34, List.lookup]
  have hlk8 : List.lookup (8 : ℕ) sched34 = none := by simp [sched34, List.lookup]
  have hdT : ((none : Option String) ≠ some "mf") = True := by simp
  have hdF : ((some "mf" : Option String) ≠ some "mf") = False := by simp
  have hss : (("4/4" : String) ≠ "4/4") = False := by simp
  have h1 : stepA sched34 "Piano" (AsmState.mk [] [Elem.tsE "4/4"] "4/4" 4 0 none 1) (MEvent.mk (MPitch.note ⟨0, 0, 4⟩) 4 "mf" "normal" 64) =
      (AsmState.mk [(4, [Elem.tsE "4/4", Elem.dynE "mf", Elem.noteE ⟨0, 0, 4⟩ 4 64 none])]
      [] "4/4" 4 0 (some "mf") 2) := by
    norm_num [stepA, applyMeter, placeCore, adjust_C4_Piano, hlk1,
      markTieStart, markTieLast, hdT, hdF, hss]
  have h2 : stepA sched34 "Piano" (AsmState.mk [(4, [Elem.tsE "4/4", Elem.dynE "mf", Elem.noteE ⟨0, 0, 4⟩ 4 64 none])]
      [] "4/4" 4 0 (some "mf") 2) (MEvent.mk (MPitch.note ⟨0, 0, 4⟩) 4 "mf" "normal" 64) =
      (AsmState.mk [(4, [Elem.tsE "4/4", Elem.dynE "mf", Elem.noteE ⟨0, 0, 4⟩ 4 64 none]),
      (4, [Elem.noteE ⟨0, 0, 4⟩ 4 64 none])]
      [] "4/4" 4 0 (some "mf") 3) := by
    norm_num [stepA, applyMeter, placeCore, adjust_C4_Piano, hlk2,
      markTieStart, markTieLast, hdT, hdF, hss]
  have h3 : stepA sched34 "Piano" (AsmState.mk [(4, [Elem.tsE "4/4", Elem.dynE "mf", Elem.noteE ⟨0, 0, 4⟩ 4 64 none]),
      (4, [Elem.noteE ⟨0, 0, 4⟩ 4 64 none])]
      [] "4/4" 4 0 (some "mf") 3) (MEvent.mk (MPitch.note ⟨0, 0, 4⟩) 4 "mf" "normal" 64) =
      (AsmState.mk [(4, [Elem.tsE "4/4", Elem.dynE "mf", Elem.noteE ⟨0, 0, 4⟩ 4 64 none]),
      (4, [Elem.noteE ⟨0, 0, 4⟩ 4 64 none]),
      (4, [Elem.noteE ⟨0, 0, 4⟩ 4 64 none])]
      [] "4/4" 4 0 (some "mf") 4) := by
    norm_num [stepA, applyMeter, placeCore, adjust_C4_Piano, hlk3,
      markTieStart, markTieLast, hdT, hdF, hss]
  have h4 : stepA sched34 "Piano" (AsmState.mk [(4, [Elem.tsE "4/4", Elem.dynE "mf", Elem.noteE ⟨0, 0, 4⟩ 4 64 none]),
      (4, [Elem.noteE ⟨0, 0, 4⟩ 4 64 none]),
      (4, [Elem.noteE ⟨0, 0, 4⟩ 4 64 none])]
      [] "4/4" 4 0 (some "mf") 4) (MEvent.mk (MPitch.note ⟨0, 0, 4⟩) 3 "mf" "normal" 64) =
      (AsmState.mk [(4, [Elem.tsE "4/4", Elem.dynE "mf", Elem.noteE ⟨0, 0, 4⟩ 4 64 none]),
      (4, [Elem.noteE ⟨0, 0, 4⟩ 4 64 none]),
      (4, [Elem.noteE ⟨0, 0, 4⟩ 4 64 none])]
      [Elem.noteE ⟨0, 0, 4⟩ 3 64 none] "4/4" 4 3 (some "mf") 4) := by
    norm_num [stepA, applyMeter, placeCore, adjust_C4_Piano, hlk4,
      markTieStart, markTieLast, hdT, hdF, hss]
  have h5 : stepA sched34 "Piano" (AsmState.mk [(4, [Elem.tsE "4/4", Elem.dynE "mf", Elem.noteE ⟨0, 0, 4⟩ 4 64 none]),
      (4, [Elem.noteE ⟨0, 0, 4⟩ 4 64 none]),
      (4, [Elem.noteE ⟨0, 0, 4⟩ 4 64 none])]
      [Elem.noteE ⟨0, 0, 4⟩ 3 64 none] "4/4" 4 3 (some "mf") 4) (MEvent.mk (MPitch.note ⟨0, 0, 4⟩) 2 "mf" "normal" 64) =
      (AsmState.mk [(4, [Elem.tsE "4/4", Elem.dynE "mf", Elem.noteE ⟨0, 0, 4⟩ 4 64 none]),
      (4, [Elem.noteE ⟨0, 0, 4⟩ 4 64 none]),
      (4, [Elem.noteE ⟨0, 0, 4⟩ 4 64 none]),
      (4, [Elem.noteE ⟨0, 0, 4⟩ 3 64 none, Elem.noteE ⟨0, 0, 4⟩ 1 64 (some true)])]
      [Elem.noteE ⟨0, 0, 4⟩ 1 64 (some false)] "4/4" 4 1 (some "mf") 5) := by
    norm_num [stepA, applyMeter, placeCore, adjust_C4_Piano, hlk4,
      markTieStart, markTieLast, hdT, hdF, hss]
  have h6 : stepA sched34 "Piano" (AsmState.mk [(4, [Elem.tsE "4/4", Elem.dynE "mf", Elem.noteE ⟨0, 0, 4⟩ 4 64 none]),
      (4, [Elem.noteE ⟨0, 0, 4⟩ 4 64 none]),
      (4, [Elem.noteE ⟨0, 0, 4⟩ 4 64 none]),
      (4, [Elem.noteE ⟨0, 0, 4⟩ 3 64 none, Elem.noteE ⟨0, 0, 4⟩ 1 64 (some true)])]
      [Elem.noteE ⟨0, 0, 4⟩ 1 64 (some false)] "4/4" 4 1 (some "mf") 5) (MEvent.mk (MPitch.note ⟨0, 0, 4⟩) 3 "mf" "normal" 64) =
      (AsmState.mk [(4, [Elem.tsE "4/4", Elem.dynE "mf", Elem.noteE ⟨0, 0, 4⟩ 4 64 none]),
      (4, [Elem.noteE ⟨0, 0, 4⟩ 4 64 none]),
      (4, [Elem.noteE ⟨0, 0, 4⟩ 4 64 none]),
      (4, [Elem.noteE ⟨0, 0, 4⟩ 3 64 none, Elem.noteE ⟨0, 0, 4⟩ 1 64 (some true)]),
      (4, [Elem.noteE ⟨0, 0, 4⟩ 1 64 (some false), Elem.noteE ⟨0, 0, 4⟩ 3 64 none])]
      [] "4/4" 4 0 (some "mf") 6) := by
    norm_num [stepA, applyMeter, placeCore, adjust_C4_Piano, hlk5,
      markTieStart, markTieLast, hdT, hdF, hss]
  have h7 : stepA sched34 "Piano" (AsmState.mk [(4, [Elem.tsE "4/4", Elem.dynE "mf", Elem.noteE ⟨0, 0, 4⟩ 4 64 none]),
      (4, [Elem.noteE ⟨0, 0, 4⟩ 4 64 none]),
      (4, [Elem.noteE ⟨0, 0, 4⟩ 4 64 none]),
      (4, [Elem.noteE ⟨0, 0, 4⟩ 3 64 none, Elem.noteE ⟨0, 0, 4⟩ 1 64 (some true)]),
      (4, [Elem.noteE ⟨0, 0, 4⟩ 1 64 (some false), Elem.noteE ⟨0, 0, 4⟩ 3 64 none])]
      [] "4/4" 4 0 (some "mf") 6) (MEvent.mk (MPitch.note ⟨0, 0, 4⟩) 4 "mf" "normal" 64) =
      (AsmState.mk [(4, [Elem.tsE "4/4", Elem.dynE "mf", Elem.noteE ⟨0, 0, 4⟩ 4 64 none]),
      (4, [Elem.noteE ⟨0, 0, 4⟩ 4 64 none]),
      (4, [Elem.noteE ⟨0, 0, 4⟩ 4 64 none]),
      (4, [Elem.noteE ⟨0, 0, 4⟩ 3 64 none, Elem.noteE ⟨0, 0, 4⟩ 1 64 (some true)]),
      (4, [Elem.noteE ⟨0, 0, 4⟩ 1 64 (some false), Elem.noteE ⟨0, 0, 4⟩ 3 64 none]),
      (4, [Elem.noteE ⟨0, 0, 4⟩ 4 64 none])]
      [] "4/4" 4 0 (some "mf") 7) := by
    norm_num [stepA, applyMeter, placeCore, adjust_C4_Piano, hlk6,
      markTieStart, markTieLast, hdT, hdF, hss]
  have h8 : stepA sched34 "Piano" (AsmState.mk [(4, [Elem.tsE "4/4", Elem.dynE "mf", Elem.noteE ⟨0, 0, 4⟩ 4 64 none]),
      (4, [Elem.noteE ⟨0, 0, 4⟩ 4 64 none]),
      (4, [Elem.noteE ⟨0, 0, 4⟩ 4 64 none]),
      (4, [Elem.noteE ⟨0, 0, 4⟩ 3 64 none, Elem.noteE ⟨0, 0, 4⟩ 1 64 (some true)]),
      (4, [Elem.noteE ⟨0, 0, 4⟩ 1 64 (some false), Elem.noteE ⟨0, 0, 4⟩ 3 64 none]),
      (4, [Elem.noteE ⟨0, 0, 4⟩ 4 64 none])]
      [] "4/4" 4 0 (some "mf") 7) (MEvent.mk (MPitch.note ⟨0, 0, 4⟩) 4 "mf" "normal" 64) =
      (AsmState.mk [(4, [Elem.tsE "4/4", Elem.dynE "mf", Elem.noteE ⟨0, 0, 4⟩ 4 64 none]),
      (4, [Elem.noteE ⟨0, 0, 4⟩ 4 64 none]),
      (4, [Elem.noteE ⟨0, 0, 4⟩ 4 64 none]),
      (4, [Elem.noteE ⟨0, 0, 4⟩ 3 64 none, Elem.noteE ⟨0, 0, 4⟩ 1 64 (some true)]),
      (4, [Elem.noteE ⟨0, 0, 4⟩ 1 64 (some false), Elem.noteE ⟨0, 0, 4⟩ 3 64 none]),
      (4, [Elem.noteE ⟨0, 0, 4⟩ 4 64 none]),
      (4, [Elem.noteE ⟨0, 0, 4⟩ 4 64 none])]
      [] "4/4" 4 0 (some "mf") 8) := by
    norm_num [stepA, applyMeter, placeCore, adjust_C4_Piano, hlk7,
      markTieStart, markTieLast, hdT, hdF, hss]
  have h9 : stepA sched34 "Piano" (AsmState.mk [(4, [Elem.tsE "4/4", Elem.dynE "mf", Elem.noteE ⟨0, 0, 4⟩ 4 64 none]),
      (4, [Elem.noteE ⟨0, 0, 4⟩ 4 64 none]),
      (4, [Elem.noteE ⟨0, 0, 4⟩ 4 64 none]),
      (4, [Elem.noteE ⟨0, 0, 4⟩ 3 64 none, Elem.noteE ⟨0, 0, 4⟩ 1 64 (some true)]),
      (4, [Elem.noteE ⟨0, 0, 4⟩ 1 64 (some false), Elem.noteE ⟨0, 0, 4⟩ 3 64 none]),
      (4, [Elem.noteE ⟨0, 0, 4⟩ 4 64 none]),
      (4, [Elem.noteE ⟨0, 0, 4⟩ 4 64 none])]
      [] "4/4" 4 0 (some "mf") 8) (MEvent.mk (MPitch.note ⟨0, 0, 4⟩) 4 "mf" "normal" 64) =
      (AsmState.mk [(4, [Elem.tsE "4/4", Elem.dynE "mf", Elem.noteE ⟨0, 0, 4⟩ 4 64 none]),
      (4, [Elem.noteE ⟨0, 0, 4⟩ 4 64 none]),
      (4, [Elem.noteE ⟨0, 0, 4⟩ 4 64 none]),
      (4, [Elem.noteE ⟨0, 0, 4⟩ 3 64 none, Elem.noteE ⟨0, 0, 4⟩ 1 64 (some true)]),
      (4, [Elem.noteE ⟨0, 0, 4⟩ 1 64 (some false), Elem.noteE ⟨0, 0, 4⟩ 3 64 none]),
      (4, [Elem.noteE ⟨0, 0, 4⟩ 4 64 none]),
      (4, [Elem.noteE ⟨0, 0, 4⟩ 4 64 none]),
      (4, [Elem.noteE ⟨0, 0, 4⟩ 4 64 none])]
      [] "4/4" 4 0 (some "mf") 9) := by
    norm_num [stepA, applyMeter, placeCore, adjust_C4_Piano, hlk8,
      markTieStart, markTieLast, hdT, hdF, hss]
  have hfold : c3EvsCE.foldl (stepA sched34 "Piano") (initA "4/4") =
      (AsmState.mk [(4, [Elem.tsE "4/4", Elem.dynE "mf", Elem.noteE ⟨0, 0, 4⟩ 4 64 none]),
      (4, [Elem.noteE ⟨0, 0, 4⟩ 4 64 none]),
      (4, [Elem.noteE ⟨0, 0, 4⟩ 4 64 none]),
      (4, [Elem.noteE ⟨0, 0, 4⟩ 3 64 none, Elem.noteE ⟨0, 0, 4⟩ 1 64 (some true)]),
      (4, [Elem.noteE ⟨0, 0, 4⟩ 1 64 (some false), Elem.noteE ⟨0, 0, 4⟩ 3 64 none]),
      (4, [Elem.noteE ⟨0, 0, 4⟩ 4 64 none]),
      (4, [Elem.noteE ⟨0, 0, 4⟩ 4 64 none]),
      (4, [Elem.noteE ⟨0, 0, 4⟩ 4 64 none])]
      [] "4/4" 4 0 (some "mf") 9) := by
    rw [c3EvsCE, hinit]
    rw [List.foldl_cons, h1, List.foldl_cons, h2, List.foldl_cons, h3,
      List.foldl_cons, h4, List.foldl_cons, h5, List.foldl_cons, h6,
      List.foldl_cons, h7, List.foldl_cons, h8, List.foldl_cons, h9,
      List.foldl_nil]
  have hrun : runAsm sched34 "Piano" "4/4" c3EvsCE =
      [(4, [Elem.tsE "4/4", Elem.dynE "mf", Elem.noteE ⟨0, 0, 4⟩ 4 64 none]),
       (4, [Elem.noteE ⟨0, 0, 4⟩ 4 64 none]), (4, [Elem.noteE ⟨0, 0, 4⟩ 4 64 none]), (4, [Elem.noteE ⟨0, 0, 4⟩ 3 64 none, Elem.noteE ⟨0, 0, 4⟩ 1 64 (some true)]),
       (4, [Elem.noteE ⟨0, 0, 4⟩ 1 64 (some false), Elem.noteE ⟨0, 0, 4⟩ 3 64 none]), (4, [Elem.noteE ⟨0, 0, 4⟩ 4 64 none]), (4, [Elem.noteE ⟨0, 0, 4⟩ 4 64 none]), (4, [Elem.noteE ⟨0, 0, 4⟩ 4 64 none])] := by
    rw [runAsm, hfold]
    norm_num [finalizeA]
  rw [hrun]
  refine ⟨rfl, rfl, by norm_num⟩

/-- C3 (amended): for every voice event sequence that fills at least 8
measures under the schedule {1: 4/4, 5: 3/4}, measures 1–4 each have
capacity 4.0, and measures 5–8 either all have capacity 3.0 (the scheduled
change applies — this happens exactly when measure 5 starts empty) or all
have capacity 4.0 (an event split across the measure-4/5 boundary makes
measure 5 start non-empty, and the change is silently skipped and never
re-attempted).  The original claim asserts the first alternative
unconditionally, which the counterexample refutes. -/
theorem C3_schedule_dichotomy (instr : String) (events : List MEvent)
    (h8 : 8 ≤ (runAsm sched34 instr "4/4" events).length) :
    (∀ i, i < 4 → ((runAsm sched34 instr "4/4" events).getD i (0, [])).1 = 4) ∧
      ((∀ i, 4 ≤ i → i < 8 →
          ((runAsm sched34 instr "4/4" events).getD i (0, [])).1 = 3) ∨
        (∀ i, 4 ≤ i → i < 8 →
          ((runAsm sched34 instr "4/4" events).getD i (0, [])).1 = 4)) := by
  obtain ⟨hcount, hts, hc4, hd4, he4⟩ :=
    c3_foldl_inv instr events (initA "4/4") c3_init
  have hrun : runAsm sched34 instr "4/4" events =
      finalizeA (events.foldl (stepA sched34 instr) (initA "4/4")) := rfl
  have hcaps : ∀ i, i < (runAsm sched34 instr "4/4" events).length →
      ((i < 4 → ((runAsm sched34 instr "4/4" events).getD i (0, [])).1 = 4) ∧
        (4 ≤ i → ((runAsm sched34 instr "4/4" events).getD i (0, [])).1 =
          (events.foldl (stepA sched34 instr) (initA "4/4")).mlen)) := by
    have happ : ∀ (x : List Elem) i,
        i < ((events.foldl (stepA sched34 instr) (initA "4/4")).closed ++
          [((events.foldl (stepA sched34 instr) (initA "4/4")).mlen, x)]).length →
        ((i < 4 → (((events.foldl (stepA sched34 instr) (initA "4/4")).closed ++
            [((events.foldl (stepA sched34 instr) (initA "4/4")).mlen, x)]).getD
              i (0, [])).1 = 4) ∧
          (4 ≤ i → (((events.foldl (stepA sched34 instr) (initA "4/4")).closed ++
            [((events.foldl (stepA sched34 instr) (initA "4/4")).mlen, x)]).getD
              i (0, [])).1 =
            (events.foldl (stepA sched34 instr) (initA "4/4")).mlen)) := by
      intro x i hi
      simp only [List.length_append, List.length_singleton] at hi
      by_cases hlt : i < (events.foldl (stepA sched34 instr) (initA "4/4")).closed.length
      · rw [getD_append_left _ _ _ _ hlt]
        exact ⟨hd4 i hlt, he4 i hlt⟩
      · have hieq : i =
            (events.foldl (stepA sched34 instr) (initA "4/4")).closed.length := by
          omega
        rw [hieq, getD_concat_length]
        constructor
        · intro h4
          rcases hts with ⟨_, hml⟩ | ⟨hct, _⟩
          · exact hml
          · have h44 := hc4 (by omega)
            rw [hct] at h44
            exact absurd h44 (by decide)
        · intro _
          rfl
    intro i hi
    rw [hrun] at hi ⊢
    rw [finalizeA] at hi ⊢
    split_ifs at hi ⊢ with hpos hpad
    · exact happ _ i hi
    · exact happ _ i hi
    · exact ⟨hd4 i hi, he4 i hi⟩
  constructor
  · intro i hi4
    exact (hcaps i (by omega)).1 hi4
  · rcases hts with ⟨_, hml⟩ | ⟨_, hml⟩
    · right
      intro i h4i hi8
      exact ((hcaps i (by omega)).2 h4i).trans hml
    · left
      intro i h4i hi8
      exact ((hcaps i (by omega)).2 h4i).trans hml

/-- The concrete melody of the C3 witness: four whole-measure notes in
4/4 followed by four whole-measure notes in 3/4. -/
def c3EvsW : List MEvent :=
  [⟨MPitch.note ⟨0, 0, 4⟩, 4, "mf", "normal", 64⟩,
   ⟨MPitch.note ⟨0, 0, 4⟩, 4, "mf", "normal", 64⟩,
   ⟨MPitch.note ⟨0, 0, 4⟩, 4, "mf", "normal", 64⟩,
   ⟨MPitch.note ⟨0, 0, 4⟩, 4, "mf", "normal", 64⟩,
   ⟨MPitch.note ⟨0, 0, 4⟩, 3, "mf", "normal", 64⟩,
   ⟨MPitch.note ⟨0, 0, 4⟩, 3, "mf", "normal", 64⟩,
   ⟨MPitch.note ⟨0, 0, 4⟩, 3, "mf", "normal", 64⟩,
   ⟨MPitch.note ⟨0, 0, 4⟩, 3, "mf", "normal", 64⟩]

lemma c3EvsW_len : (runAsm sched34 "Piano" "4/4" c3EvsW).length = 8 := by
  have hinit : initA "4/4" = AsmState.mk [] [Elem.tsE "4/4"] "4/4" 4 0 none 1 := by
    rw [initA, tsValue_44]
  have hlk1 : List.lookup (1 : ℕ) sched34 = some "4/4" := by simp [sched34, List.lookup]
  have hlk2 : List.lookup (2 : ℕ) sched34 = none := by simp [sched34, List.lookup]
  have hlk3 : List.lookup (3 : ℕ) sched34 = none := by simp [sched34, List.lookup]
  have hlk4 : List.lookup (4 : ℕ) sched34 = none := by simp [sched34, List.lookup]
  have hlk5 : List.lookup (5 : ℕ) sched34 = some "3/4" := by simp [sched34, List.lookup]
  have hlk6 : List.lookup (6 : ℕ) sched34 = none := by simp [sched34, List.lookup]
  have hlk7 : List.lookup (7 : ℕ) sched34 = none := by simp [sched34, List.lookup]
  have hlk8 : List.lookup (8 : ℕ) sched34 = none := by simp [sched34, List.lookup]
  have hdT : ((none : Option String) ≠ some "mf") = True := by simp
  have hdF : ((some "mf" : Option String) ≠ some "mf") = False := by simp
  have hss : (("4/4" : String) ≠ "4/4") = False := by simp
  have hss2 : (("3/4" : String) ≠ "4/4") = True := by simp
  have w1 : stepA sched34 "Piano" (AsmState.mk [] [Elem.tsE "4/4"] "4/4" 4 0 none 1) (MEvent.mk (MPitch.note ⟨0, 0, 4⟩) 4 "mf" "normal" 64) =
      (AsmState.mk [(4, [Elem.tsE "4/4", Elem.dynE "mf", Elem.noteE ⟨0, 0, 4⟩ 4 64 none])]
      [] "4/4" 4 0 (some "mf") 2) := by
    norm_num [stepA, applyMeter, placeCore, adjust_C4_Piano, hlk1,
      markTieStart, markTieLast, hdT, hdF, hss]
  have w2 : stepA sched34 "Piano" (AsmState.mk [(4, [Elem.tsE "4/4", Elem.dynE "mf", Elem.noteE ⟨0, 0, 4⟩ 4 64 none])]
      [] "4/4" 4 0 (some "mf") 2) (MEvent.mk (MPitch.note ⟨0, 0, 4⟩) 4 "mf" "normal" 64) =
      (AsmState.mk [(4, [Elem.tsE "4/4", Elem.dynE "mf", Elem.noteE ⟨0, 0, 4⟩ 4 64 none]),
      (4, [Elem.noteE ⟨0, 0, 4⟩ 4 64 none])]
      [] "4/4" 4 0 (some "mf") 3) := by
    norm_num [stepA, applyMeter, placeCore, adjust_C4_Piano, hlk2,
      markTieStart, markTieLast, hdT, hdF, hss]
  have w3 : stepA sched34 "Piano" (AsmState.mk [(4, [Elem.tsE "4/4", Elem.dynE "mf", Elem.noteE ⟨0, 0, 4⟩ 4 64 none]),
      (4, [Elem.noteE ⟨0, 0, 4⟩ 4 64 none])]
      [] "4/4" 4 0 (some "mf") 3) (MEvent.mk (MPitch.note ⟨0, 0, 4⟩) 4 "mf" "normal" 64) =
      (AsmState.mk [(4, [Elem.tsE "4/4", Elem.dynE "mf", Elem.noteE ⟨0, 0, 4⟩ 4 64 none]),
      (4, [Elem.noteE ⟨0, 0, 4⟩ 4 64 none]),
      (4, [Elem.noteE ⟨0, 0, 4⟩ 4 64 none])]
      [] "4/4" 4 0 (some "mf") 4) := by
    norm_num [stepA, applyMeter, placeCore, adjust_C4_Piano, hlk3,
      markTieStart, markTieLast, hdT, hdF, hss]
  have w4 : stepA sched34 "Piano" (AsmState.mk [(4, [Elem.tsE "4/4", Elem.dynE "mf", Elem.noteE ⟨0, 0, 4⟩ 4 64 none]),
      (4, [Elem.noteE ⟨0, 0, 4⟩ 4 64 none]),
      (4, [Elem.noteE ⟨0, 0, 4⟩ 4 64 none])]
      [] "4/4" 4 0 (some "mf") 4) (MEvent.mk (MPitch.note ⟨0, 0, 4⟩) 4 "mf" "normal" 64) =
      (AsmState.mk [(4, [Elem.tsE "4/4", Elem.dynE "mf", Elem.noteE ⟨0, 0, 4⟩ 4 64 none]),
      (4, [Elem.noteE ⟨0, 0, 4⟩ 4 64 none]),
      (4, [Elem.noteE ⟨0, 0, 4⟩ 4 64 none]),
      (4, [Elem.noteE ⟨0, 0, 4⟩ 4 64 none])]
      [] "4/4" 4 0 (some "mf") 5) := by
    norm_num [stepA, applyMeter, placeCore, adjust_C4_Piano, hlk4,
      markTieStart, markTieLast, hdT, hdF, hss]
  have w5 : stepA sched34 "Piano" (AsmState.mk [(4, [Elem.tsE "4/4", Elem.dynE "mf", Elem.noteE ⟨0, 0, 4⟩ 4 64 none]),
      (4, [Elem.noteE ⟨0, 0, 4⟩ 4 64 none]),
      (4, [Elem.noteE ⟨0, 0, 4⟩ 4 64 none]),
      (4, [Elem.noteE ⟨0, 0, 4⟩ 4 64 none])]
      [] "4/4" 4 0 (some "mf") 5) (MEvent.mk (MPitch.note ⟨0, 0, 4⟩) 3 "mf" "normal" 64) =
      (AsmState.mk [(4, [Elem.tsE "4/4", Elem.dynE "mf", Elem.noteE ⟨0, 0, 4⟩ 4 64 none]),
      (4, [Elem.noteE ⟨0, 0, 4⟩ 4 64 none]),
      (4, [Elem.noteE ⟨0, 0, 4⟩ 4 64 none]),
      (4, [Elem.noteE ⟨0, 0, 4⟩ 4 64 none]),
      (3, [Elem.tsE "3/4", Elem.noteE ⟨0, 0, 4⟩ 3 64 none])]
      [] "3/4" 3 0 (some "mf") 6) := by
    norm_num [stepA, applyMeter, placeCore, adjust_C4_Piano, hlk5,
      markTieStart, markTieLast, hdT, hdF, hss, tsValue_34, hss2]
  have w6 : stepA sched34 "Piano" (AsmState.mk [(4, [Elem.tsE "4/4", Elem.dynE "mf", Elem.noteE ⟨0, 0, 4⟩ 4 64 none]),
      (4, [Elem.noteE ⟨0, 0, 4⟩ 4 64 none]),
      (4, [Elem.noteE ⟨0, 0, 4⟩ 4 64 none]),
      (4, [Elem.noteE ⟨0, 0, 4⟩ 4 64 none]),
      (3, [Elem.tsE "3/4", Elem.noteE ⟨0, 0, 4⟩ 3 64 none])]
      [] "3/4" 3 0 (some "mf") 6) (MEvent.mk (MPitch.note ⟨0, 0, 4⟩) 3 "mf" "normal" 64) =
      (AsmState.mk [(4, [Elem.tsE "4/4", Elem.dynE "mf", Elem.noteE ⟨0, 0, 4⟩ 4 64 none]),
      (4, [Elem.noteE ⟨0, 0, 4⟩ 4 64 none]),
      (4, [Elem.noteE ⟨0, 0, 4⟩ 4 64 none]),
      (4, [Elem.noteE ⟨0, 0, 4⟩ 4 64 none]),
      (3, [Elem.tsE "3/4", Elem.noteE ⟨0, 0, 4⟩ 3 64 none]),
      (3, [Elem.noteE ⟨0, 0, 4⟩ 3 64 none])]
      [] "3/4" 3 0 (some "mf") 7) := by
    norm_num [stepA, applyMeter, placeCore, adjust_C4_Piano, hlk6,
      markTieStart, markTieLast, hdT, hdF, hss]
  have w7 : stepA sched34 "Piano" (AsmState.mk [(4, [Elem.tsE "4/4", Elem.dynE "mf", Elem.noteE ⟨0, 0, 4⟩ 4 64 none]),
      (4, [Elem.noteE ⟨0, 0, 4⟩ 4 64 none]),
      (4, [Elem.noteE ⟨0, 0, 4⟩ 4 64 none]),
      (4, [Elem.noteE ⟨0, 0, 4⟩ 4 64 none]),
      (3, [Elem.tsE "3/4", Elem.noteE ⟨0, 0, 4⟩ 3 64 none]),
      (3, [Elem.noteE ⟨0, 0, 4⟩ 3 64 none])]
      [] "3/4" 3 0 (some "mf") 7) (MEvent.mk (MPitch.note ⟨0, 0, 4⟩) 3 "mf" "normal" 64) =
      (AsmState.mk [(4, [Elem.tsE "4/4", Elem.dynE "mf", Elem.noteE ⟨0, 0, 4⟩ 4 64 none]),
      (4, [Elem.noteE ⟨0, 0, 4⟩ 4 64 none]),
      (4, [Elem.noteE ⟨0, 0, 4⟩ 4 64 none]),
      (4, [Elem.noteE ⟨0, 0, 4⟩ 4 64 none]),
      (3, [Elem.tsE "3/4", Elem.noteE ⟨0, 0, 4⟩ 3 64 none]),
      (3, [Elem.noteE ⟨0, 0, 4⟩ 3 64 none]),
      (3, [Elem.noteE ⟨0, 0, 4⟩ 3 64 none])]
      [] "3/4" 3 0 (some "mf") 8) := by
    norm_num [stepA, applyMeter, placeCore, adjust_C4_Piano, hlk7,
      markTieStart, markTieLast, hdT, hdF, hss]
  have w8 : stepA sched34 "Piano" (AsmState.mk [(4, [Elem.tsE "4/4", Elem.dynE "mf", Elem.noteE ⟨0, 0, 4⟩ 4 64 none]),
      (4, [Elem.noteE ⟨0, 0, 4⟩ 4 64 none]),
      (4, [Elem.noteE ⟨0, 0, 4⟩ 4 64 none]),
      (4, [Elem.noteE ⟨0, 0, 4⟩ 4 64 none]),
      (3, [Elem.tsE "3/4", Elem.noteE ⟨0, 0, 4⟩ 3 64 none]),
      (3, [Elem.noteE ⟨0, 0, 4⟩ 3 64 none]),
      (3, [Elem.noteE ⟨0, 0, 4⟩ 3 64 none])]
      [] "3/4" 3 0 (some "mf") 8) (MEvent.mk (MPitch.note ⟨0, 0, 4⟩) 3 "mf" "normal" 64) =
      (AsmState.mk [(4, [Elem.tsE "4/4", Elem.dynE "mf", Elem.noteE ⟨0, 0, 4⟩ 4 64 none]),
      (4, [Elem.noteE ⟨0, 0, 4⟩ 4 64 none]),
      (4, [Elem.noteE ⟨0, 0, 4⟩ 4 64 none]),
      (4, [Elem.noteE ⟨0, 0, 4⟩ 4 64 none]),
      (3, [Elem.tsE "3/4", Elem.noteE ⟨0, 0, 4⟩ 3 64 none]),
      (3, [Elem.noteE ⟨0, 0, 4⟩ 3 64 none]),
      (3, [Elem.noteE ⟨0, 0, 4⟩ 3 64 none]),
      (3, [Elem.noteE ⟨0, 0, 4⟩ 3 64 none])]
      [] "3/4" 3 0 (some "mf") 9) := by
    norm_num [stepA, applyMeter, placeCore, adjust_C4_Piano, hlk8,
      markTieStart, markTieLast, hdT, hdF, hss]
  have hfold : c3EvsW.foldl (stepA sched34 "Piano") (initA "4/4") =
      (AsmState.mk [(4, [Elem.tsE "4/4", Elem.dynE "mf", Elem.noteE ⟨0, 0, 4⟩ 4 64 none]),
      (4, [Elem.noteE ⟨0, 0, 4⟩ 4 64 none]),
      (4, [Elem.noteE ⟨0, 0, 4⟩ 4 64 none]),
      (4, [Elem.noteE ⟨0, 0, 4⟩ 4 64 none]),
      (3, [Elem.tsE "3/4", Elem.noteE ⟨0, 0, 4⟩ 3 64 none]),
      (3, [Elem.noteE ⟨0, 0, 4⟩ 3 64 none]),
      (3, [Elem.noteE ⟨0, 0, 4⟩ 3 64 none]),
      (3, [Elem.noteE ⟨0, 0, 4⟩ 3 64 none])]
      [] "3/4" 3 0 (some "mf") 9) := by
    rw [c3EvsW, hinit]
    rw [List.foldl_cons, w1, List.foldl_cons, w2, List.foldl_cons, w3,
      List.foldl_cons, w4, List.foldl_cons, w5, List.foldl_cons, w6,
      List.foldl_cons, w7, List.foldl_cons, w8, List.foldl_nil]
  rw [runAsm, hfold]
  norm_num [finalizeA]

/-- C3 witness: the amended dichotomy theorem applied to the concrete
clean-boundary melody, which fills exactly 8 measures. -/
theorem C3_witness :
    8 ≤ (runAsm sched34 "Piano" "4/4" c3EvsW).length ∧
      ((∀ i, i < 4 → ((runAsm sched34 "Piano" "4/4" c3EvsW).getD i (0, [])).1 = 4) ∧
        ((∀ i, 4 ≤ i → i < 8 →
            ((runAsm sched34 "Piano" "4/4" c3EvsW).getD i (0, [])).1 = 3) ∨
          (∀ i, 4 ≤ i → i < 8 →
            ((runAsm sched34 "Piano" "4/4" c3EvsW).getD i (0, [])).1 = 4))) :=
  ⟨by rw [c3EvsW_len], C3_schedule_dichotomy "Piano" c3EvsW (by rw [c3EvsW_len])⟩

end MarkovMusic
